import Mathlib

/-!
Verification of the trackmeet cross-event dependency and result-resolution
engine (`src/trackmeet/__init__.py`).

The development shallowly embeds the parts of the program that the checked
properties talk about:

* the dirty tracker `check_depends_dirty` over the event directory;
* the autospec resolvers `autostart_riders` and `autoplace_riders`, with the
  recursion through event handler `loadconfig` calls;
* the communique allocator `find_communique`;
* the export entry point `menu_data_export_activate_cb` and the body of
  `__run_data_export`;
* the cross-reference rewrite loop of `eventno_change`.

Machinery that lives outside the provided source (the `eventdb` record store
helpers, `strops.placeset`, and the per-race-type handler modules) is modelled
from the specification; each such definition carries a doc comment starting
with `Modelled from the spec:`.

Python strings are embedded as Lean `String`; the splitting, trimming and
digit-parsing primitives are re-implemented structurally below so that every
definition evaluates by kernel reduction.
-/

namespace Trackmeet

/-! ### String primitives

Structural re-implementations of the string operations the source uses
(`str.split(sep)`, `str.strip()`, `int(...)`, `str(...)`).  They exist so the
embedding stays computable by `rfl`/`decide`. -/

/-- Split a character list at every occurrence of `sep` (Python `split(sep)`:
an empty input yields one empty field). -/
def chSplit (sep : Char) : List Char → List (List Char)
  | [] => [[]]
  | c :: rest =>
    match chSplit sep rest with
    | [] => [[c]]
    | h :: t => if c = sep then [] :: h :: t else (c :: h) :: t

/-- Split a string at every occurrence of the separator character. -/
def strSplit (sep : Char) (s : String) : List String :=
  (chSplit sep s.data).map String.mk

/-- Python `str.strip()`, restricted to the space character (the identifiers
appearing in autospec strings are only ever padded with spaces). -/
def strTrim (s : String) : String :=
  String.mk (((s.data.dropWhile (· = ' ')).reverse.dropWhile (· = ' ')).reverse)

/-- Decimal digit value of a character, if it is a digit. -/
def digit? (c : Char) : Option Nat :=
  if c.toNat ≥ 48 ∧ c.toNat ≤ 57 then some (c.toNat - 48) else none

/-- Accumulating decimal parser over a character list. -/
def chNat? : List Char → Option Nat → Option Nat
  | [], acc => acc
  | c :: r, acc =>
    match acc, digit? c with
    | _, none => none
    | none, some d => chNat? r (some d)
    | some a, some d => chNat? r (some (a * 10 + d))

/-- Python `int(s)` for nonnegative decimals, as an `Option`. -/
def strNat? (s : String) : Option Nat := chNat? s.data none

/-- Decimal digits of a positive number, most significant first; `fuel` bounds
the recursion and any `fuel > n` is exact. -/
def natDigsAux : Nat → Nat → List Char
  | 0, _ => []
  | fuel + 1, n =>
    if n = 0 then []
    else natDigsAux fuel (n / 10) ++ [Char.ofNat (48 + n % 10)]

/-- Python `str(n)` for a natural number. -/
def natToStr (n : Nat) : String :=
  if n = 0 then "0" else String.mk (natDigsAux (n + 1) n)

/-- Insert into a sorted list of naturals, keeping it sorted. -/
def insSorted (n : Nat) : List Nat → List Nat
  | [] => [n]
  | m :: r => if n ≤ m then n :: m :: r else m :: insSorted n r

/-- Ascending insertion sort (Python `sorted` over integer keys). -/
def sortNat (l : List Nat) : List Nat := l.foldr insSorted []

/-! ### Dirty tracker: the event directory view used by `check_depends_dirty`

An event record, restricted to the fields this component touches: the
space-split dependency list `depe`, the mutable `dirty` flag, and the
result-export flag `res` (read by the export pass). -/

structure DepRec where
  depe : List String
  dirty : Bool
  res : Bool := false
deriving DecidableEq

/-- The event directory, keyed by event number.  The Python `eventdb` holds
one record per event number, in insertion order. -/
abbrev Edb := List (String × DepRec)

/-- Dictionary lookup (`evno in self.edb` / `self.edb[evno]`). -/
def lookupE : Edb → String → Option DepRec
  | [], _ => none
  | (k, r) :: rest, e => if k = e then some r else lookupE rest e

/-- Current value of an event's `dirty` flag (false for an unknown event). -/
def dirtyOf (edb : Edb) (e : String) : Bool :=
  match lookupE edb e with
  | some r => r.dirty
  | none => false

/-- `ev['dirty'] = True` on the record stored under `e`. -/
def setDirty (edb : Edb) (e : String) : Edb :=
  edb.map (fun p => if p.1 = e then (p.1, { p.2 with dirty := true }) else p)

/-- The dependency scan loop of `check_depends_dirty`: walk `deps` (the
space-split `depe` field of `evno`), breaking out as soon as the current
event's flag is set, skipping dependencies already in the visited set, and
otherwise recursing through `rec` (the one-level-deeper
`check_depends_dirty`), adding the dependency to the visited set afterwards
and setting the current event dirty whenever the recursion reports dirty. -/
def checkScanF (rec : Edb → List String → String → Bool × Edb) :
    Edb → List String → String → List String → Edb
  | edb, _, _, [] => edb
  | edb, checks, evno, dev :: rest =>
    if dirtyOf edb evno then edb
    else if checks.contains dev then checkScanF rec edb checks evno rest
    else
      let r := rec edb checks dev
      let edb2 := if r.1 then setDirty r.2 evno else r.2
      checkScanF rec edb2 (dev :: checks) evno rest

/-- `check_depends_dirty(evno, checked)`: recursively determine whether the
event or any of its (transitive) dependencies is dirty, propagating the flag
onto the current event.  `fuel` bounds the recursion depth; the visited set
keeps the real recursion depth below the number of events, so any
sufficiently large fuel is exact (proved below). -/
def checkDepends : Nat → Edb → List String → String → Bool × Edb
  | 0, edb, _, _ => (false, edb)
  | fuel + 1, edb, checked, evno =>
    match lookupE edb evno with
    | none => (false, edb)
    | some ev =>
      let edb2 := checkScanF (checkDepends fuel) edb (evno :: checked) evno ev.depe
      (dirtyOf edb2 evno, edb2)

/-- The spec-side notion of staleness: an event is dirty when its own flag is
set, or when some event named in its `depend` list is (transitively) dirty.
Unknown event identifiers never contribute. -/
inductive ReachDirty (edb : Edb) : String → Prop
  | own (e : String) (ev : DepRec) : lookupE edb e = some ev → ev.dirty = true →
      ReachDirty edb e
  | dep (e : String) (ev : DepRec) (d : String) : lookupE edb e = some ev →
      d ∈ ev.depe → ReachDirty edb d → ReachDirty edb e

/-- The three-event chain of the dirty-propagation scenario: `E3` depends on
`E2`, `E2` on `E1`, and only `E1` is dirty. -/
def chainEdb : Edb :=
  [("E1", { depe := [], dirty := true }),
   ("E2", { depe := ["E1"], dirty := false }),
   ("E3", { depe := ["E2"], dirty := false })]

/-! ### Dirty tracker: basic state lemmas -/

/-- The key list of the directory (stable under dirty-flag updates). -/
def keysOf (edb : Edb) : List String := edb.map Prod.fst

theorem keysOf_setDirty (edb : Edb) (x : String) :
    keysOf (setDirty edb x) = keysOf edb := by
  induction edb with
  | nil => rfl
  | cons p rest ih =>
    simp only [keysOf, setDirty, List.map_cons] at ih ⊢
    rw [ih]
    by_cases h : p.1 = x <;> simp [h]

theorem lookup_setDirty (edb : Edb) (x e : String) :
    lookupE (setDirty edb x) e =
      if e = x then (lookupE edb e).map (fun r => { r with dirty := true })
      else lookupE edb e := by
  induction edb with
  | nil => simp only [setDirty, List.map_nil, lookupE]; split <;> rfl
  | cons p rest ih =>
    obtain ⟨k, r⟩ := p
    simp only [setDirty, List.map_cons] at ih ⊢
    by_cases hx : k = x
    · subst hx
      simp only [if_pos rfl]
      by_cases hk : k = e
      · subst hk
        simp [lookupE]
      · simp [lookupE, hk, Ne.symm hk, ih]
    · simp only [if_neg hx]
      by_cases hk : k = e
      · subst hk
        simp [lookupE, hx]
      · simp [lookupE, hk, ih]

/-- A shape-preserving, dirty-monotone step of the directory state: keys,
dependency lists and export flags are unchanged, and dirty flags only go from
false to true. -/
def MonoLE (a b : Edb) : Prop :=
  ∀ e, (lookupE a e).map DepRec.depe = (lookupE b e).map DepRec.depe ∧
       (lookupE a e).map DepRec.res = (lookupE b e).map DepRec.res ∧
       (dirtyOf a e = true → dirtyOf b e = true)

theorem monoLE_refl (a : Edb) : MonoLE a a := fun _ => ⟨rfl, rfl, id⟩

theorem monoLE_trans {a b c : Edb} (h1 : MonoLE a b) (h2 : MonoLE b c) :
    MonoLE a c := fun e =>
  ⟨(h1 e).1.trans (h2 e).1, (h1 e).2.1.trans (h2 e).2.1,
    fun h => (h2 e).2.2 ((h1 e).2.2 h)⟩

theorem monoLE_lookup {a b : Edb} (h : MonoLE a b) {e : String} {ev : DepRec}
    (hl : lookupE a e = some ev) :
    ∃ ev2, lookupE b e = some ev2 ∧ ev2.depe = ev.depe ∧ ev2.res = ev.res := by
  have h1 := (h e).1
  have h2 := (h e).2.1
  rw [hl] at h1 h2
  cases hb : lookupE b e with
  | none => rw [hb] at h1; simp at h1
  | some ev2 =>
    rw [hb] at h1 h2
    simp only [Option.map_some'] at h1 h2
    exact ⟨ev2, rfl, (Option.some_inj.mp h1).symm, (Option.some_inj.mp h2).symm⟩

theorem monoLE_isSome {a b : Edb} (h : MonoLE a b) (e : String) :
    (lookupE a e).isSome = (lookupE b e).isSome := by
  have h1 := (h e).1
  cases ha : lookupE a e <;> cases hb : lookupE b e <;>
    rw [ha, hb] at h1 <;> simp_all

theorem monoLE_setDirty (edb : Edb) (x : String) :
    MonoLE edb (setDirty edb x) := by
  intro e
  refine ⟨?_, ?_, ?_⟩
  · rw [lookup_setDirty]
    by_cases hx : e = x
    · rw [if_pos hx]; cases lookupE edb e <;> rfl
    · rw [if_neg hx]
  · rw [lookup_setDirty]
    by_cases hx : e = x
    · rw [if_pos hx]; cases lookupE edb e <;> rfl
    · rw [if_neg hx]
  · intro h
    simp only [dirtyOf, lookup_setDirty] at h ⊢
    by_cases hx : e = x
    · rw [if_pos hx]
      cases hl : lookupE edb e <;> rw [hl] at h
      · exact h
      · simp
    · rw [if_neg hx]
      exact h

theorem dirtyOf_setDirty_self (edb : Edb) (x : String)
    (h : (lookupE edb x).isSome) : dirtyOf (setDirty edb x) x = true := by
  simp only [dirtyOf, lookup_setDirty, if_pos rfl]
  cases hl : lookupE edb x <;> rw [hl] at h <;> simp_all

/-- An event whose own flag is set is trivially (transitively) dirty. -/
theorem dirty_reach {edb : Edb} {e : String} (h : dirtyOf edb e = true) :
    ReachDirty edb e := by
  simp only [dirtyOf] at h
  cases hl : lookupE edb e with
  | none => rw [hl] at h; simp at h
  | some r => rw [hl] at h; exact .own e r hl h

/-- Soundness relation between an initial and an evolved directory state:
every event dirty in the evolved state was already transitively dirty in the
initial one. -/
def Sound (a b : Edb) : Prop := ∀ e, dirtyOf b e = true → ReachDirty a e

theorem sound_refl (a : Edb) : Sound a a := fun _ h => dirty_reach h

theorem reach_mono {a b : Edb} (h : MonoLE a b) {e : String}
    (hr : ReachDirty a e) : ReachDirty b e := by
  induction hr with
  | own v ev hl hd =>
    refine dirty_reach ((h v).2.2 ?_)
    simp [dirtyOf, hl, hd]
  | dep v ev d hl hd _ ih =>
    obtain ⟨ev2, hl2, hdep, _⟩ := monoLE_lookup h hl
    exact .dep v ev2 d hl2 (hdep ▸ hd) ih

theorem reach_back {a b : Edb} (hm : MonoLE a b) (hs : Sound a b) {e : String}
    (hr : ReachDirty b e) : ReachDirty a e := by
  induction hr with
  | own v ev hl hd => exact hs v (by simp [dirtyOf, hl, hd])
  | dep v ev d hl hd _ ih =>
    have h1 := (hm v).1
    cases ha : lookupE a v with
    | none => rw [ha, hl] at h1; simp at h1
    | some ev1 =>
      rw [ha, hl] at h1
      simp only [Option.map_some'] at h1
      exact .dep v ev1 d ha (Option.some_inj.mp h1 ▸ hd) ih

theorem sound_trans {a b c : Edb} (hm : MonoLE a b) (h1 : Sound a b)
    (h2 : Sound b c) : Sound a c :=
  fun e h => reach_back hm h1 (h2 e h)

theorem dirtyOf_setDirty_ne (edb : Edb) {x e : String} (h : e ≠ x) :
    dirtyOf (setDirty edb x) e = dirtyOf edb e := by
  simp [dirtyOf, lookup_setDirty, h]

/-! ### Dirty tracker: soundness of `check_depends_dirty`

The scan only ever flips dirty flags from false to true, and only on events
that were already transitively dirty in the starting state. -/

theorem checkScanF_props (rec : Edb → List String → String → Bool × Edb)
    (hrec : ∀ edb checks dev,
      keysOf (rec edb checks dev).2 = keysOf edb ∧
      MonoLE edb (rec edb checks dev).2 ∧
      Sound edb (rec edb checks dev).2 ∧
      ((rec edb checks dev).1 = true → ReachDirty edb dev)) :
    ∀ (deps : List String) (edb : Edb) (checks : List String) (evno : String),
      (∀ d ∈ deps, ∃ ev, lookupE edb evno = some ev ∧ d ∈ ev.depe) →
      keysOf (checkScanF rec edb checks evno deps) = keysOf edb ∧
      MonoLE edb (checkScanF rec edb checks evno deps) ∧
      Sound edb (checkScanF rec edb checks evno deps) := by
  intro deps
  induction deps with
  | nil => exact fun edb checks evno _ => ⟨rfl, monoLE_refl edb, sound_refl edb⟩
  | cons dev rest ih =>
    intro edb checks evno hdep
    simp only [checkScanF]
    cases hdd : dirtyOf edb evno with
    | true => simp only [if_pos rfl]; exact ⟨rfl, monoLE_refl edb, sound_refl edb⟩
    | false =>
    simp only [Bool.false_eq_true, if_false]
    by_cases hc : checks.contains dev
    · rw [if_pos hc]
      exact ih edb checks evno (fun d hd => hdep d (List.mem_cons_of_mem dev hd))
    · rw [if_neg hc]
      obtain ⟨hk, hm, hs, ht⟩ := hrec edb checks dev
      obtain ⟨ev, hlev, hdev⟩ := hdep dev (List.mem_cons_self dev rest)
      cases hr1 : (rec edb checks dev).1 with
      | false =>
        simp only [Bool.false_eq_true, if_false]
        have hdep2 : ∀ d ∈ rest, ∃ e2, lookupE (rec edb checks dev).2 evno = some e2 ∧
            d ∈ e2.depe := by
          intro d hd
          obtain ⟨e0, hl0, hd0⟩ := hdep d (List.mem_cons_of_mem dev hd)
          obtain ⟨e2, hl2, hdepe, _⟩ := monoLE_lookup hm hl0
          exact ⟨e2, hl2, hdepe ▸ hd0⟩
        obtain ⟨ik, im, is⟩ := ih (rec edb checks dev).2 (dev :: checks) evno hdep2
        exact ⟨ik.trans hk, monoLE_trans hm im, sound_trans hm hs is⟩
      | true =>
        simp only [if_pos rfl]
        have hreach : ReachDirty edb evno := .dep evno ev dev hlev hdev (ht hr1)
        have hm2 : MonoLE edb (setDirty (rec edb checks dev).2 evno) :=
          monoLE_trans hm (monoLE_setDirty _ _)
        have hs2 : Sound edb (setDirty (rec edb checks dev).2 evno) := by
          intro e he
          by_cases hex : e = evno
          · exact hex ▸ hreach
          · rw [dirtyOf_setDirty_ne _ hex] at he
            exact hs e he
        have hdep2 : ∀ d ∈ rest,
            ∃ e2, lookupE (setDirty (rec edb checks dev).2 evno) evno = some e2 ∧
              d ∈ e2.depe := by
          intro d hd
          obtain ⟨e0, hl0, hd0⟩ := hdep d (List.mem_cons_of_mem dev hd)
          obtain ⟨e2, hl2, hdepe, _⟩ := monoLE_lookup hm2 hl0
          exact ⟨e2, hl2, hdepe ▸ hd0⟩
        obtain ⟨ik, im, is⟩ :=
          ih (setDirty (rec edb checks dev).2 evno) (dev :: checks) evno hdep2
        refine ⟨ik.trans ((keysOf_setDirty _ _).trans hk), monoLE_trans hm2 im,
          sound_trans hm2 hs2 is⟩

theorem checkDepends_props (fuel : Nat) :
    ∀ (edb : Edb) (checked : List String) (evno : String),
      keysOf (checkDepends fuel edb checked evno).2 = keysOf edb ∧
      MonoLE edb (checkDepends fuel edb checked evno).2 ∧
      Sound edb (checkDepends fuel edb checked evno).2 ∧
      ((checkDepends fuel edb checked evno).1 = true → ReachDirty edb evno) := by
  induction fuel with
  | zero =>
    intro edb checked evno
    exact ⟨rfl, monoLE_refl _, sound_refl _, by simp [checkDepends]⟩
  | succ f ihf =>
    intro edb checked evno
    simp only [checkDepends]
    cases hl : lookupE edb evno with
    | none => exact ⟨rfl, monoLE_refl _, sound_refl _, by simp⟩
    | some ev =>
      have hscan := checkScanF_props (checkDepends f) ihf ev.depe edb
        (evno :: checked) evno (fun d hd => ⟨ev, hl, hd⟩)
      exact ⟨hscan.1, hscan.2.1, hscan.2.2, fun hres => hscan.2.2 evno hres⟩

/-! ### Dirty tracker: completeness via dependency paths -/

/-- A concrete dependency path: `DPath edb v p` means `p` is a walk starting
at `v` that follows `depend` edges and ends at an event whose own dirty flag
is set. -/
inductive DPath (edb : Edb) : String → List String → Prop
  | last (v : String) : dirtyOf edb v = true → DPath edb v [v]
  | cons (v w : String) (rest : List String) (ev : DepRec) :
      lookupE edb v = some ev → w ∈ ev.depe → DPath edb w (w :: rest) →
      DPath edb v (v :: w :: rest)

theorem dpath_head {edb : Edb} {v : String} {p : List String}
    (h : DPath edb v p) : ∃ t, p = v :: t := by
  cases h with
  | last _ _ => exact ⟨[], rfl⟩
  | cons _ w rest _ _ _ _ => exact ⟨w :: rest, rfl⟩

theorem dpath_mono {a b : Edb} (hm : MonoLE a b) {v : String} {p : List String}
    (h : DPath a v p) : DPath b v p := by
  induction h with
  | last v hd => exact .last v ((hm v).2.2 hd)
  | cons v w rest ev hl hw _ ih =>
    obtain ⟨ev2, hl2, hdep, _⟩ := monoLE_lookup hm hl
    exact .cons v w rest ev2 hl2 (hdep ▸ hw) ih

/-- From any node on a dependency path, a suffix of the path is again a
dependency path. -/
theorem dpath_suffix {edb : Edb} {v : String} {p : List String}
    (h : DPath edb v p) {w : String} (hw : w ∈ p) :
    ∃ q, DPath edb w q ∧ q.Sublist p := by
  induction h with
  | last v hd =>
    rw [List.mem_singleton] at hw
    subst hw
    exact ⟨[w], .last w hd, List.Sublist.refl _⟩
  | cons v w2 rest ev hl hdep hp ih =>
    rcases List.mem_cons.mp hw with hwv | hw2
    · subst hwv
      exact ⟨_, .cons _ w2 rest ev hl hdep hp, List.Sublist.refl _⟩
    · obtain ⟨q, hq, hsub⟩ := ih hw2
      exact ⟨q, hq, hsub.trans (List.sublist_cons_self _ _)⟩

/-- Every transitively dirty event has a duplicate-free dependency path. -/
theorem reach_dpath {edb : Edb} {e : String} (h : ReachDirty edb e) :
    ∃ p, DPath edb e p ∧ p.Nodup := by
  induction h with
  | own v ev hl hd => exact ⟨[v], .last v (by simp [dirtyOf, hl, hd]), by simp⟩
  | dep v ev d hl hd _ ih =>
    obtain ⟨q, hq, hnd⟩ := ih
    by_cases hv : v ∈ q
    · obtain ⟨q2, hq2, hsub⟩ := dpath_suffix hq hv
      exact ⟨q2, hq2, hnd.sublist hsub⟩
    · obtain ⟨t, rfl⟩ := dpath_head hq
      exact ⟨v :: d :: t, .cons v d t ev hl hd hq,
        List.nodup_cons.mpr ⟨hv, hnd⟩⟩

/-- Number of directory keys not yet on the visited set: the decreasing
measure of the recursion, and hence a sufficient fuel bound. -/
def countFree (keys checks : List String) : Nat :=
  (keys.filter (fun k => !(checks.contains k))).length

theorem countFree_cons_le (keys checks : List String) (k : String) :
    countFree keys (k :: checks) ≤ countFree keys checks := by
  induction keys with
  | nil => exact le_rfl
  | cons x xs ih =>
    simp only [countFree, List.filter] at ih ⊢
    cases hx : checks.contains x with
    | true =>
      have h1 : (k :: checks).contains x = true := by
        rw [List.contains_cons, hx, Bool.or_true]
      simp only [h1, hx, Bool.not_true]
      exact ih
    | false =>
      cases hkx : (k :: checks).contains x with
      | true => simp only [hkx, hx, Bool.not_true, Bool.not_false,
          List.length_cons]; omega
      | false => simp only [hkx, hx, Bool.not_false, List.length_cons]; omega

theorem countFree_cons_lt (keys checks : List String) (k : String)
    (hk : k ∈ keys) (hc : checks.contains k = false) :
    countFree keys (k :: checks) < countFree keys checks := by
  induction keys with
  | nil => exact absurd hk (List.not_mem_nil k)
  | cons x xs ih =>
    by_cases hxk : x = k
    · subst hxk
      have h1 : (x :: checks).contains x = true := by
        rw [List.contains_cons]
        simp
      simp only [countFree, List.filter, h1, hc, Bool.not_true, Bool.not_false,
        List.length_cons]
      exact Nat.lt_succ_of_le (countFree_cons_le xs checks x)
    · have hk2 : k ∈ xs := by
        rcases List.mem_cons.mp hk with h | h
        · exact absurd h.symm hxk
        · exact h
      have hbx : (x == k) = false := by
        cases hb : x == k with
        | true => exact absurd (eq_of_beq hb) hxk
        | false => rfl
      have heq : (k :: checks).contains x = checks.contains x := by
        rw [List.contains_cons, hbx, Bool.false_or]
      cases hx : checks.contains x with
      | true =>
        simp only [countFree, List.filter, heq, hx, Bool.not_true]
        exact ih hk2
      | false =>
        simp only [countFree, List.filter, heq, hx, Bool.not_false,
          List.length_cons]
        exact Nat.succ_lt_succ (ih hk2)

theorem lookup_mem_keys {edb : Edb} {e : String} {r : DepRec}
    (h : lookupE edb e = some r) : e ∈ keysOf edb := by
  induction edb with
  | nil => simp [lookupE] at h
  | cons p rest ih =>
    obtain ⟨k, v⟩ := p
    simp only [lookupE] at h
    by_cases hk : k = e
    · simp [keysOf, hk]
    · rw [if_neg hk] at h
      simp [keysOf]
      right
      simpa [keysOf] using ih h

/-- Once the current event's flag is set, the scan loop returns the state
unchanged (the `break` in the source). -/
theorem checkScanF_of_dirty (rec : Edb → List String → String → Bool × Edb)
    (edb : Edb) (checks : List String) (evno : String) (deps : List String)
    (h : dirtyOf edb evno = true) : checkScanF rec edb checks evno deps = edb := by
  cases deps with
  | nil => rfl
  | cons d r => simp [checkScanF, h]

/-- The completeness statement, indexed by a bound on the path length: a
duplicate-free dependency path that avoids the visited set forces
`check_depends_dirty` to answer true, given enough fuel. -/
def StarP (n : Nat) : Prop :=
  ∀ (fuel : Nat) (edb : Edb) (checked : List String) (evno : String)
    (p : List String),
    p.length ≤ n → DPath edb evno p → p.Nodup →
    (∀ x ∈ p, checked.contains x = false) →
    countFree (keysOf edb) checked < fuel →
    (checkDepends fuel edb checked evno).1 = true

/-- Scan-level step of the completeness argument: if some entry of the
remaining dependency list heads a short, fresh, duplicate-free path to a
dirty event, the scan marks the current event dirty. -/
theorem checkScanF_star (n : Nat) (hih : ∀ m, m < n → StarP m) :
    ∀ (deps : List String) (fuel : Nat) (edb : Edb) (checks : List String)
      (evno dev : String) (q : List String),
      dev ∈ deps → DPath edb dev q → q.Nodup →
      (∀ x ∈ q, checks.contains x = false) →
      countFree (keysOf edb) checks < fuel →
      q.length < n →
      (lookupE edb evno).isSome = true →
      dirtyOf (checkScanF (checkDepends fuel) edb checks evno deps) evno =
        true := by
  intro deps
  induction deps with
  | nil => intro _ _ _ _ _ _ hmem; exact absurd hmem (List.not_mem_nil _)
  | cons d0 rest ih =>
    intro fuel edb checks evno dev q hmem hq hnd havoid hfree hlen hsome
    simp only [checkScanF]
    cases hdd : dirtyOf edb evno with
    | true => simp only [if_pos rfl]; exact hdd
    | false =>
    simp only [Bool.false_eq_true, if_false]
    have hdevq : dev ∈ q := by
      obtain ⟨t, rfl⟩ := dpath_head hq
      exact List.mem_cons_self dev t
    cases hc : checks.contains d0 with
    | true =>
      simp only [if_pos rfl]
      have hne : dev ≠ d0 := by
        intro h
        rw [h] at hdevq
        have := havoid d0 hdevq
        rw [hc] at this
        exact absurd this (by simp)
      have hdevr : dev ∈ rest := by
        rcases List.mem_cons.mp hmem with h | h
        · exact absurd h hne
        · exact h
      exact ih fuel edb checks evno dev q hdevr hq hnd havoid hfree hlen hsome
    | false =>
      simp only [Bool.false_eq_true, if_false]
      have hprops := checkDepends_props fuel edb checks d0
      cases hr1 : (checkDepends fuel edb checks d0).1 with
      | true =>
        rw [if_pos rfl]
        have hsome2 : (lookupE (checkDepends fuel edb checks d0).2 evno).isSome :=
          by rw [← monoLE_isSome hprops.2.1 evno]; exact hsome
        have hd2 : dirtyOf (setDirty (checkDepends fuel edb checks d0).2 evno)
            evno = true := dirtyOf_setDirty_self _ _ hsome2
        rw [checkScanF_of_dirty _ _ _ _ _ hd2]
        exact hd2
      | false =>
        simp only [Bool.false_eq_true, if_false]
        by_cases hd0q : d0 ∈ q
        · obtain ⟨q2, hq2, hsub⟩ := dpath_suffix hq hd0q
          have hstar : (checkDepends fuel edb checks d0).1 = true := by
            refine hih q2.length (lt_of_le_of_lt hsub.length_le hlen) fuel edb
              checks d0 q2 le_rfl hq2 (hnd.sublist hsub) ?_ hfree
            exact fun x hx => havoid x (hsub.subset hx)
          rw [hr1] at hstar
          exact absurd hstar (by simp)
        · cases hde : dirtyOf (checkDepends fuel edb checks d0).2 evno with
          | true =>
            rw [checkScanF_of_dirty _ _ _ _ _ hde]
            exact hde
          | false =>
            have hm := hprops.2.1
            have hne : dev ≠ d0 := fun h => hd0q (h ▸ hdevq)
            have hdevr : dev ∈ rest := by
              rcases List.mem_cons.mp hmem with h | h
              · exact absurd h hne
              · exact h
            refine ih fuel (checkDepends fuel edb checks d0).2 (d0 :: checks)
              evno dev q hdevr (dpath_mono hm hq) hnd ?_ ?_ hlen ?_
            · intro x hx
              have hxd0 : (x == d0) = false := by
                cases hb : x == d0 with
                | true => exact absurd (eq_of_beq hb ▸ hx) hd0q
                | false => rfl
              rw [List.contains_cons, hxd0, Bool.false_or]
              exact havoid x hx
            · rw [hprops.1]
              exact lt_of_le_of_lt (countFree_cons_le _ _ _) hfree
            · rw [← monoLE_isSome hm evno]
              exact hsome

/-- Inversion on a singleton dependency path. -/
theorem dpath_singleton {edb : Edb} {v : String} (h : DPath edb v [v]) :
    dirtyOf edb v = true := by
  cases h
  assumption

/-- Inversion on a dependency path of length at least two. -/
theorem dpath_cons2 {edb : Edb} {v w : String} {rest : List String}
    (h : DPath edb v (v :: w :: rest)) :
    (∃ ev, lookupE edb v = some ev ∧ w ∈ ev.depe) ∧ DPath edb w (w :: rest) := by
  cases h
  rename_i ev hl hw hp
  exact ⟨⟨ev, hl, hw⟩, hp⟩

/-- Completeness of `check_depends_dirty`: any transitively dirty event is
reported dirty, given fuel above the directory key count. -/
theorem checkDepends_star (n : Nat) : StarP n := by
  induction n using Nat.strong_induction_on with
  | _ n hih =>
    intro fuel edb checked evno p hlen hp hnd havoid hfree
    cases fuel with
    | zero => exact absurd hfree (by omega)
    | succ f =>
      obtain ⟨t, rfl⟩ := dpath_head hp
      cases t with
      | nil =>
        have hd := dpath_singleton hp
        have hsome : ∃ ev, lookupE edb evno = some ev := by
          simp only [dirtyOf] at hd
          cases hl : lookupE edb evno with
          | none => rw [hl] at hd; exact absurd hd (by simp)
          | some ev => exact ⟨ev, rfl⟩
        obtain ⟨ev, hlev⟩ := hsome
        simp only [checkDepends, hlev]
        rw [checkScanF_of_dirty _ _ _ _ _ hd]
        exact hd
      | cons w rest =>
        obtain ⟨⟨ev, hlev, hw⟩, hq⟩ := dpath_cons2 hp
        simp only [checkDepends, hlev]
        have hnd2 : (w :: rest).Nodup := (List.nodup_cons.mp hnd).2
        have hvq : evno ∉ w :: rest := (List.nodup_cons.mp hnd).1
        have havoid2 : ∀ x ∈ w :: rest, (evno :: checked).contains x = false := by
          intro x hx
          have hxv : (x == evno) = false := by
            cases hb : x == evno with
            | true => exact absurd ((eq_of_beq hb) ▸ hx) hvq
            | false => rfl
          rw [List.contains_cons, hxv, Bool.false_or]
          exact havoid x (List.mem_cons_of_mem evno hx)
        have hfree2 : countFree (keysOf edb) (evno :: checked) < f := by
          have h1 : countFree (keysOf edb) (evno :: checked) <
              countFree (keysOf edb) checked :=
            countFree_cons_lt _ _ _ (lookup_mem_keys hlev)
              (havoid evno (List.mem_cons_self evno _))
          omega
        have hlen2 : (w :: rest).length < n := by
          simp only [List.length_cons] at hlen ⊢
          omega
        exact checkScanF_star n hih ev.depe f edb (evno :: checked) evno w
          (w :: rest) hw hq hnd2 havoid2 hfree2 hlen2 (by simp [hlev])

/-! ### Dirty tracker: termination (fuel irrelevance)

Any fuel above the number of directory keys outside the visited set gives the
same result: the recursion, pruned by the visited set, terminates. -/

theorem checkDepends_missing (f : Nat) (edb : Edb) (checked : List String)
    (evno : String) (h : lookupE edb evno = none) :
    checkDepends f edb checked evno = (false, edb) := by
  cases f with
  | zero => rfl
  | succ g => simp [checkDepends, h]

theorem checkScanF_fuel (f g : Nat)
    (hfg : ∀ (edb : Edb) (checked : List String) (evno : String),
      countFree (keysOf edb) (evno :: checked) < f →
      countFree (keysOf edb) (evno :: checked) < g →
      checkDepends f edb checked evno = checkDepends g edb checked evno) :
    ∀ (deps : List String) (edb : Edb) (checks : List String) (evno : String),
      countFree (keysOf edb) checks < f + 1 →
      countFree (keysOf edb) checks < g + 1 →
      checkScanF (checkDepends f) edb checks evno deps =
        checkScanF (checkDepends g) edb checks evno deps := by
  intro deps
  induction deps with
  | nil => intro edb checks evno _ _; rfl
  | cons dev rest ih =>
    intro edb checks evno hf hg
    simp only [checkScanF]
    cases hdd : dirtyOf edb evno with
    | true => rw [if_pos rfl, if_pos rfl]
    | false =>
    simp only [Bool.false_eq_true, if_false]
    cases hc : checks.contains dev with
    | true =>
      rw [if_pos rfl, if_pos rfl]
      exact ih edb checks evno hf hg
    | false =>
      simp only [Bool.false_eq_true, if_false]
      cases hld : lookupE edb dev with
      | none =>
        rw [checkDepends_missing f edb checks dev hld,
          checkDepends_missing g edb checks dev hld]
        simp only [Bool.false_eq_true, if_false]
        exact ih edb (dev :: checks) evno
          (lt_of_le_of_lt (countFree_cons_le _ _ _) hf)
          (lt_of_le_of_lt (countFree_cons_le _ _ _) hg)
      | some dr =>
        have hdk : dev ∈ keysOf edb := lookup_mem_keys hld
        have hdec : countFree (keysOf edb) (dev :: checks) <
            countFree (keysOf edb) checks := countFree_cons_lt _ _ _ hdk hc
        have heq : checkDepends f edb checks dev = checkDepends g edb checks dev :=
          hfg edb checks dev (by omega) (by omega)
        rw [heq]
        have hkeys := (checkDepends_props g edb checks dev).1
        cases hr : (checkDepends g edb checks dev).1 with
        | true =>
          simp only [if_pos rfl]
          refine ih (setDirty (checkDepends g edb checks dev).2 evno)
            (dev :: checks) evno ?_ ?_
          · rw [keysOf_setDirty, hkeys]; omega
          · rw [keysOf_setDirty, hkeys]; omega
        | false =>
          simp only [Bool.false_eq_true, if_false]
          refine ih (checkDepends g edb checks dev).2 (dev :: checks) evno ?_ ?_
          · rw [hkeys]; omega
          · rw [hkeys]; omega

theorem checkDepends_fuel (f : Nat) :
    ∀ (g : Nat) (edb : Edb) (checked : List String) (evno : String),
      countFree (keysOf edb) (evno :: checked) < f →
      countFree (keysOf edb) (evno :: checked) < g →
      checkDepends f edb checked evno = checkDepends g edb checked evno := by
  induction f with
  | zero => intro g edb checked evno hf _; exact absurd hf (by omega)
  | succ f ihf =>
    intro g edb checked evno hf hg
    cases g with
    | zero => exact absurd hg (by omega)
    | succ g2 =>
      simp only [checkDepends]
      cases hl : lookupE edb evno with
      | none => rfl
      | some ev =>
        have hs := checkScanF_fuel f g2
          (fun edb2 c2 e2 h1 h2 => ihf g2 edb2 c2 e2 h1 h2)
          ev.depe edb (evno :: checked) evno hf hg
        simp only [hs]

/-! ### Claim C1 -/

/-- C1: on the chain where `E3` depends on `E2`, `E2` on `E1`, and only `E1`
is dirty, `check_depends_dirty("E3")` returns true and afterwards both `E2`
and `E3` carry the dirty flag; in general (with fuel above the directory
size) the call returns true exactly when the event's own flag is set or some
event named (transitively) in its depend list is dirty, and afterwards the
current event's flag equals that answer (it is set whenever a dependency was
found dirty). -/
theorem C1_check_depends_dirty :
    ((checkDepends 4 chainEdb [] "E3").1 = true ∧
      dirtyOf (checkDepends 4 chainEdb [] "E3").2 "E2" = true ∧
      dirtyOf (checkDepends 4 chainEdb [] "E3").2 "E3" = true) ∧
    (∀ (edb : Edb) (evno : String) (fuel : Nat),
      countFree (keysOf edb) [] < fuel →
      ((checkDepends fuel edb [] evno).1 = true ↔ ReachDirty edb evno) ∧
      ((lookupE edb evno).isSome →
        dirtyOf (checkDepends fuel edb [] evno).2 evno =
          (checkDepends fuel edb [] evno).1)) := by
  constructor
  · exact ⟨by decide, by decide, by decide⟩
  · intro edb evno fuel hfuel
    refine ⟨⟨fun hr => (checkDepends_props fuel edb [] evno).2.2.2 hr, ?_⟩, ?_⟩
    · intro hr
      obtain ⟨p, hp, hnd⟩ := reach_dpath hr
      exact checkDepends_star p.length fuel edb [] evno p le_rfl hp hnd
        (by simp) hfuel
    · intro hsome
      cases fuel with
      | zero => exact absurd hfuel (by omega)
      | succ f =>
        cases hl : lookupE edb evno with
        | none => rw [hl] at hsome; exact absurd hsome (by simp)
        | some ev => simp [checkDepends, hl]

/-- Closed instantiation of `C1_check_depends_dirty` on the concrete chain,
discharging the fuel hypothesis. -/
theorem C1_check_depends_dirty_witness :
    ((checkDepends 4 chainEdb [] "E3").1 = true ↔ ReachDirty chainEdb "E3") ∧
      dirtyOf (checkDepends 4 chainEdb [] "E3").2 "E3" =
        (checkDepends 4 chainEdb [] "E3").1 :=
  ⟨(C1_check_depends_dirty.2 chainEdb "E3" 4 (by decide)).1,
    (C1_check_depends_dirty.2 chainEdb "E3" 4 (by decide)).2 (by decide)⟩

/-! ### Autospec resolver: data model

The resolver (`autoplace_riders`, `autostart_riders`) reads a different view
of the event records: type tag, autospec string, and the external handler
interface (`result_gen`, `finished`, `standingstr`).  Handler modules are not
part of the provided source, so the handler-side fields and the recursion
through `loadconfig` are modelled from the spec. -/

/-- A cell of a ranked-result tuple: an integer (a rank) or a string. -/
inductive Cell
  | num (n : Nat)
  | txt (s : String)
deriving DecidableEq

/-- String view of a cell (`'-'.join` operates on rider strings). -/
def cellStr : Cell → String
  | .num n => natToStr n
  | .txt s => s

/-- One tuple from a handler's `result_gen()`: cell 0 is the rider id, cell 1
the rank (an integer, or a status code such as DNF). -/
abbrev RankedRes := List Cell

/-- Event record view for the resolver.  `usePlace` tells whether the
handler's `loadconfig` re-enters the resolver through the place-aggregation
path (the `ps` handler) or the startlist path; `results`, `hfinished` and
`standing` model the external handler interface (`result_gen()`, `finished`,
`standingstr()`). -/
structure RRec where
  evtype : String
  usePlace : Bool
  autospec : String
  results : List RankedRes
  hfinished : Bool
  standing : String
deriving DecidableEq

/-- The event directory as seen by the resolver. -/
abbrev REdb := List (String × RRec)

def lookupR : REdb → String → Option RRec
  | [], _ => none
  | (k, r) :: rest, e => if k = e then some r else lookupR rest e

/-- The target race borrowed by the resolver: type tag plus the rider list
built by `addrider(rider, seed)` calls. -/
structure Race where
  evtype : String
  riders : List (Cell × Option Cell)
deriving DecidableEq

/-- `MAX_AUTORECURSE = 8`: maximum levels of autostart dependency. -/
def MAX_AUTORECURSE : Nat := 8

/-- Inclusive rank range `a..b`. -/
def rangeIncl (a b : Nat) : List Nat := (List.range (b + 1 - a)).map (a + ·)

/-- Modelled from the spec: `strops.placeset` (metarace `strops`, an external
collaborator).  Per the grammar `placeSet := token (" " token)*`,
`token := rank | rank "-" rank`, it yields the requested ranks as an ordered
list, in the literal order written. -/
def placesetM (s : String) : List Nat :=
  ((strSplit ' ' s).filter (fun t => t ≠ "")).flatMap (fun t =>
    match (strSplit '-' t).map strNat? with
    | [some n] => [n]
    | [some a, some b] => rangeIncl a b
    | _ => [])

/-- Markers for the log lines the resolver emits: the observable trace of
skipped groups and aborts. -/
inductive LogEv
  | limitExceeded
  | loopStart (evno : String)
  | loopPlace (evno : String)
  | missing (evno : String)
  | notFound (evno : String)
  | notFinal (evno : String)
  | badGroup (g : String)
  | fuelOut
deriving DecidableEq

/-- Lookup in a rank-keyed insertion-ordered map (a Python dict keyed by
integer ranks). -/
def pmLookup {A : Type} : List (Nat × List A) → Nat → Option (List A)
  | [], _ => none
  | (k, v) :: rest, n => if k = n then some v else pmLookup rest n

/-- `map.setdefault(rank, []).append(x)`: append under the rank, creating the
key at the end of the key order when new. -/
def pmAppend {A : Type} : List (Nat × List A) → Nat → A → List (Nat × List A)
  | [], n, x => [(n, [x])]
  | (k, v) :: rest, n, x =>
    if k = n then (k, v ++ [x]) :: rest else (k, v) :: pmAppend rest n x

/-- The seed selection of `autostart_riders`: `seed = ri[infocol]` when an
info column is requested and the tuple is long enough, else `None`. -/
def seedOf (infocol : Option Nat) (ri : RankedRes) : Option Cell :=
  match infocol with
  | some i => if i < ri.length then ri.get? i else none
  | none => none

/-- The result scan of `autostart_riders`: for every ranked result whose rank
is an integer contained in the place set, append `(rider, seed)` under that
rank.  (The source indexes `ri[0]`/`ri[1]` directly, assuming well-formed
tuples.) -/
def buildPlacemap (infocol : Option Nat) (placeset : List Nat) :
    List RankedRes → List (Nat × List (Cell × Option Cell)) →
    List (Nat × List (Cell × Option Cell))
  | [], acc => acc
  | ri :: rest, acc =>
    match ri with
    | r0 :: Cell.num rank :: _ =>
      if placeset.contains rank then
        buildPlacemap infocol placeset rest
          (pmAppend acc rank (r0, seedOf infocol ri))
      else buildPlacemap infocol placeset rest acc
    | _ => buildPlacemap infocol placeset rest acc

/-- The emission loop of `autostart_riders` (source comment: "maintain
ordering of autospec"): walk the place set in its literal order and
`addrider` every entry recorded under each rank. -/
def emitPlaceset (pmap : List (Nat × List (Cell × Option Cell))) :
    List Nat → Race → Race
  | [], race => race
  | p :: rest, race =>
    match pmLookup pmap p with
    | some ris => emitPlaceset pmap rest { race with riders := race.riders ++ ris }
    | none => emitPlaceset pmap rest race

/-- The result scan of `autoplace_riders`: append the rider id under its
integer rank when the rank is requested. -/
def placeScan (placeset : List Nat) :
    List RankedRes → List (Nat × List Cell) → List (Nat × List Cell)
  | [], places => places
  | ri :: rest, places =>
    match ri with
    | r0 :: Cell.num rank :: _ =>
      if placeset.contains rank then
        placeScan placeset rest (pmAppend places rank r0)
      else placeScan placeset rest places
    | _ => placeScan placeset rest places

/-- Python `sep.join(parts)`. -/
def strJoin (sep : String) : List String → String
  | [] => ""
  | [x] => x
  | x :: rest => x ++ sep ++ strJoin sep rest

/-- The return-string construction of `autoplace_riders`: ranks in ascending
numeric order (`for place in sorted(places)`), riders tied on a rank joined
with `-`, each rank group preceded by a space. -/
def placesString (places : List (Nat × List Cell)) : String :=
  (sortNat (places.map Prod.fst)).foldl (fun acc p =>
    match pmLookup places p with
    | some ris => acc ++ " " ++ strJoin "-" (ris.map cellStr)
    | none => acc) ""

/-! ### Autospec resolver: the two resolution paths

Both cores take the handler `loadconfig` action as a function argument
(`load guard evno`), so the embedding stays structurally recursive on fuel. -/

/-- The group loop of `autostart_riders` (`for egroup in autospec.split(';')`).
Group order: well-formedness (exactly one `:`), directory membership, the
recursion guard, then `loadconfig`, the finished-or-omnium gate, the result
scan and the literal-order emission, and finally the guard removal. -/
def autostartGroups (load : List String → String → List String × List LogEv)
    (edb : REdb) :
    List String → List String → Race → Option Nat →
    Race × List String × List LogEv
  | [], guard, race, _ => (race, guard, [])
  | g :: rest, guard, race, infocol =>
    match strSplit ':' g with
    | [a, b] =>
      let evno := strTrim a
      match lookupR edb evno with
      | some e =>
        if guard.contains evno then
          let r2 := autostartGroups load edb rest guard race infocol
          (r2.1, r2.2.1, .loopStart evno :: r2.2.2)
        else
          let placeset := placesetM b
          let l1 := load (evno :: guard) evno
          let contribute := e.hfinished ||
            (e.evtype == "omnium" && race.evtype != "classification")
          let pmap := if contribute then
            buildPlacemap infocol placeset e.results [] else []
          let race1 := emitPlaceset pmap placeset race
          let r2 := autostartGroups load edb rest (l1.1.erase evno) race1
            infocol
          (r2.1, r2.2.1,
            l1.2 ++ (if contribute then [] else [.notFinal evno]) ++ r2.2.2)
      | none =>
        let r2 := autostartGroups load edb rest guard race infocol
        (r2.1, r2.2.1, .missing evno :: r2.2.2)
    | _ =>
      let r2 := autostartGroups load edb rest guard race infocol
      (r2.1, r2.2.1, .badGroup g :: r2.2.2)

/-- `autostart_riders(race, autospec, infocol, final)` body: the recursion
limit check (`len(self.autorecurse) > MAX_AUTORECURSE`) aborts the whole
invocation, otherwise the group loop runs.  The `final` parameter is
accepted but never read by the source. -/
def autostartCore (load : List String → String → List String × List LogEv)
    (edb : REdb) (guard : List String) (race : Race) (autospec : String)
    (infocol : Option Nat) (final : Bool) : Race × List String × List LogEv :=
  if guard.length > MAX_AUTORECURSE then (race, guard, [.limitExceeded])
  else autostartGroups load edb (strSplit ';' autospec) guard race infocol

/-- The group loop of `autoplace_riders`: the guard is consulted before the
directory (and the source id is pushed on the guard even when the event is
missing), the `final` flag gates on `standingstr() == 'Result'`, and there is
no recursion-limit check on this path. -/
def autoplaceGroups (load : List String → String → List String × List LogEv)
    (edb : REdb) :
    List String → List String → List (Nat × List Cell) → Bool →
    List (Nat × List Cell) × List String × List LogEv
  | [], guard, places, _ => (places, guard, [])
  | g :: rest, guard, places, final =>
    match strSplit ':' g with
    | [a, b] =>
      let evno := strTrim a
      if guard.contains evno then
        let r2 := autoplaceGroups load edb rest guard places final
        (r2.1, r2.2.1, .loopPlace evno :: r2.2.2)
      else
        let placeset := placesetM b
        match lookupR edb evno with
        | some e =>
          let l1 := load (evno :: guard) evno
          let isFinal := e.standing == "Result"
          let places1 := if !final || isFinal then
            placeScan placeset e.results places else places
          let r2 := autoplaceGroups load edb rest (l1.1.erase evno) places1
            final
          (r2.1, r2.2.1, l1.2 ++ r2.2.2)
        | none =>
          let r2 := autoplaceGroups load edb rest ((evno :: guard).erase evno)
            places final
          (r2.1, r2.2.1, .notFound evno :: r2.2.2)
    | _ =>
      let r2 := autoplaceGroups load edb rest guard places final
      (r2.1, r2.2.1, .badGroup g :: r2.2.2)

/-- `autoplace_riders(race, autospec, infocol, final)` body: aggregate a
rank-keyed place map over all groups, then render it in ascending rank
order.  The `race` and `infocol` parameters are accepted but never read by
the source, and there is no recursion-limit check. -/
def autoplaceCore (load : List String → String → List String × List LogEv)
    (edb : REdb) (guard : List String) (race : Race) (autospec : String)
    (infocol : Option Nat) (final : Bool) : String × List String × List LogEv :=
  let r := autoplaceGroups load edb (strSplit ';' autospec) guard [] final
  (placesString r.1, r.2.1, r.2.2)

/-- Modelled from the spec: the handler side of `mkrace(...).loadconfig()`
for a source event (the handler modules are not part of the provided
source).  Loading a source event's handler re-enters the resolver on that
event's own autospec — the spec's AutospecResolver "recursively pulls ranked
results from referenced events" — through the place-aggregation path for a
`ps`-style handler and the startlist path otherwise.  Only the recursion
guard and the log are observable; the handler's own race is discarded. -/
def loadEvent : Nat → REdb → List String → String → List String × List LogEv
  | 0, _, guard, _ => (guard, [.fuelOut])
  | fuel + 1, edb, guard, evno =>
    match lookupR edb evno with
    | none => (guard, [])
    | some r =>
      if r.usePlace then
        let a := autoplaceCore (loadEvent fuel edb) edb guard
          { evtype := r.evtype, riders := [] } r.autospec none true
        (a.2.1, a.2.2)
      else
        let a := autostartCore (loadEvent fuel edb) edb guard
          { evtype := r.evtype, riders := [] } r.autospec none true
        (a.2.1, a.2.2)

/-- `autostart_riders` with the handler recursion instantiated. -/
def autostart_riders (fuel : Nat) (edb : REdb) (guard : List String)
    (race : Race) (autospec : String) (infocol : Option Nat) (final : Bool) :
    Race × List String × List LogEv :=
  autostartCore (loadEvent fuel edb) edb guard race autospec infocol final

/-- `autoplace_riders` with the handler recursion instantiated. -/
def autoplace_riders (fuel : Nat) (edb : REdb) (guard : List String)
    (race : Race) (autospec : String) (infocol : Option Nat) (final : Bool) :
    String × List String × List LogEv :=
  autoplaceCore (loadEvent fuel edb) edb guard race autospec infocol final

/-! ### Autospec resolver: emission-order lemmas -/

/-- The entries the startlist scan collects under rank `p`: the results whose
rank cell equals `p`, in source order, paired with their seeds. -/
def rankEntries (infocol : Option Nat) (p : Nat) :
    List RankedRes → List (Cell × Option Cell)
  | [] => []
  | ri :: rest =>
    match ri with
    | r0 :: Cell.num rank :: _ =>
      if rank = p then (r0, seedOf infocol ri) :: rankEntries infocol p rest
      else rankEntries infocol p rest
    | _ => rankEntries infocol p rest

theorem pmLookup_pmAppend {A : Type} (m : List (Nat × List A)) (k k2 : Nat)
    (x : A) :
    pmLookup (pmAppend m k x) k2 =
      if k2 = k then some ((pmLookup m k).getD [] ++ [x])
      else pmLookup m k2 := by
  induction m with
  | nil =>
    by_cases h : k2 = k
    · simp [pmAppend, pmLookup, h]
    · have h2 : ¬ k = k2 := fun hh => h hh.symm
      simp [pmAppend, pmLookup, h, h2]
  | cons q rest ih =>
    obtain ⟨k1, v⟩ := q
    by_cases h1 : k1 = k <;> by_cases h2 : k1 = k2 <;> by_cases h3 : k2 = k <;>
      simp_all [pmAppend, pmLookup]

/-- The emission loop adds exactly the concatenation, in the literal place-set
order, of the rider lists recorded under each requested rank. -/
theorem emitPlaceset_eq (pmap : List (Nat × List (Cell × Option Cell))) :
    ∀ (ps : List Nat) (race : Race),
      emitPlaceset pmap ps race =
        { race with riders := race.riders ++
            ps.flatMap (fun p => (pmLookup pmap p).getD []) } := by
  intro ps
  induction ps with
  | nil => intro race; simp [emitPlaceset]
  | cons p rest ih =>
    intro race
    simp only [emitPlaceset]
    cases h : pmLookup pmap p with
    | none =>
      exact (ih race).trans (by simp [h])
    | some ris =>
      exact (ih { race with riders := race.riders ++ ris }).trans
        (by simp [h, List.append_assoc])

theorem emitPlaceset_empty (ps : List Nat) (race : Race) :
    emitPlaceset [] ps race = race := by
  induction ps with
  | nil => rfl
  | cons p rest ih => simp only [emitPlaceset, pmLookup]; exact ih

/-- The startlist scan groups ties: the list recorded under a requested rank
is exactly the source-order list of results carrying that rank. -/
theorem buildPlacemap_lookup (ic : Option Nat) (ps : List Nat) (p : Nat)
    (hp : ps.contains p = true) :
    ∀ (results : List RankedRes) (acc : List (Nat × List (Cell × Option Cell))),
      (pmLookup (buildPlacemap ic ps results acc) p).getD [] =
        (pmLookup acc p).getD [] ++ rankEntries ic p results := by
  intro results
  induction results with
  | nil => intro acc; simp [buildPlacemap, rankEntries]
  | cons ri rest ih =>
    intro acc
    cases ri with
    | nil => simp only [buildPlacemap, rankEntries]; simpa using ih acc
    | cons r0 t1 =>
      cases t1 with
      | nil => simp only [buildPlacemap, rankEntries]; simpa using ih acc
      | cons c1 t2 =>
        cases c1 with
        | txt s => simp only [buildPlacemap, rankEntries]; simpa using ih acc
        | num rank =>
          simp only [buildPlacemap, rankEntries]
          cases hr : ps.contains rank with
          | true =>
            rw [if_pos rfl]
            by_cases hrp : rank = p
            · subst hrp
              rw [if_pos rfl, ih (pmAppend acc rank (r0, seedOf ic (r0 :: Cell.num rank :: t2)))]
              rw [pmLookup_pmAppend]
              rw [if_pos rfl]
              simp [List.append_assoc]
            · rw [if_neg hrp, ih (pmAppend acc rank (r0, seedOf ic (r0 :: Cell.num rank :: t2)))]
              rw [pmLookup_pmAppend, if_neg (fun h => hrp h.symm)]
          | false =>
            have hrp : ¬ rank = p := by
              intro h
              rw [h, hp] at hr
              exact absurd hr (by simp)
            rw [if_neg (by simp : ¬ false = true), if_neg hrp]
            exact ih acc

/-! ### Autospec resolver: concrete fixtures -/

/-- A plain target race with no riders. -/
def race0 : Race := { evtype := "race", riders := [] }

/-- A finished source event with riders A, B, C ranked 1, 2, 3. -/
def edb1 : REdb :=
  [("E1", { evtype := "race", usePlace := false, autospec := "",
            results := [[.txt "A", .num 1], [.txt "B", .num 2],
              [.txt "C", .num 3]],
            hfinished := true, standing := "Result" })]

/-- An unfinished, non-omnium source event with a rank-1 result. -/
def edbU : REdb :=
  [("E1", { evtype := "race", usePlace := false, autospec := "",
            results := [[.txt "A", .num 1]],
            hfinished := false, standing := "Standings" })]

/-- An unfinished omnium source event with a rank-1 result. -/
def edbO : REdb :=
  [("E1", { evtype := "omnium", usePlace := false, autospec := "",
            results := [[.txt "A", .num 1]],
            hfinished := false, standing := "Standings" })]

/-- A place-aggregation (`ps`-style) event whose autospec names `nxt`. -/
def psRec (nxt : String) : RRec :=
  { evtype := "tempo", usePlace := true, autospec := nxt ++ ":1",
    results := [[.txt "r", .num 1]], hfinished := true, standing := "Result" }

/-- A twelve-deep chain of place-aggregation events; the innermost autospec
names the missing event `EX`. -/
def psEdb : REdb :=
  [("E1", psRec "E2"), ("E2", psRec "E3"), ("E3", psRec "E4"),
   ("E4", psRec "E5"), ("E5", psRec "E6"), ("E6", psRec "E7"),
   ("E7", psRec "E8"), ("E8", psRec "E9"), ("E9", psRec "E10"),
   ("E10", psRec "E11"), ("E11", psRec "E12"), ("E12", psRec "EX")]

/-- A startlist-path event whose autospec names `nxt`. -/
def asRec (nxt : String) : RRec :=
  { evtype := "race", usePlace := false, autospec := nxt ++ ":1",
    results := [[.txt "r", .num 1]], hfinished := true, standing := "Result" }

/-- The same twelve-deep chain through the startlist path. -/
def asEdb : REdb :=
  [("E1", asRec "E2"), ("E2", asRec "E3"), ("E3", asRec "E4"),
   ("E4", asRec "E5"), ("E5", asRec "E6"), ("E6", asRec "E7"),
   ("E7", asRec "E8"), ("E8", asRec "E9"), ("E9", asRec "E10"),
   ("E10", asRec "E11"), ("E11", asRec "E12"), ("E12", asRec "EX")]

/-- Single well-formed group over a one-event directory: the startlist path
adds exactly the rank-1 entries when the finished-or-omnium gate passes, and
nothing otherwise. -/
theorem autostartGroups_single
    (load : List String → String → List String × List LogEv) (e : RRec)
    (race : Race) (ic : Option Nat) :
    (autostartGroups load [("E1", e)] ["E1:1"] [] race ic).1.riders =
      race.riders ++
        (if e.hfinished || (e.evtype == "omnium" &&
            race.evtype != "classification") then rankEntries ic 1 e.results
          else []) := by
  simp only [autostartGroups]
  rw [show strSplit ':' "E1:1" = ["E1", "1"] from rfl]
  simp only [show strTrim "E1" = "E1" from rfl, lookupR,
    show placesetM "1" = [1] from rfl]
  simp only [if_pos rfl, List.contains, List.elem_nil, Bool.false_eq_true,
    if_false, if_true]
  cases hc : e.hfinished || (e.evtype == "omnium" &&
      race.evtype != "classification") with
  | true =>
    simp only [if_pos rfl, emitPlaceset_eq]
    have hb := buildPlacemap_lookup ic [1] 1 (by decide) e.results []
    simp only [pmLookup, Option.getD_none] at hb
    simp [hb]
  | false =>
    simp only [Bool.false_eq_true, if_false, emitPlaceset_empty]
    simp

/-- Single well-formed group over a one-event directory: the place map built
by the aggregation path, gated on `final`/`standingstr`. -/
theorem autoplaceGroups_single
    (load : List String → String → List String × List LogEv) (e : RRec)
    (fin : Bool) :
    (autoplaceGroups load [("E1", e)] ["E1:1"] [] [] fin).1 =
      (if !fin || (e.standing == "Result") then placeScan [1] e.results []
        else []) := by
  simp only [autoplaceGroups]
  rw [show strSplit ':' "E1:1" = ["E1", "1"] from rfl]
  simp only [show strTrim "E1" = "E1" from rfl, lookupR,
    show placesetM "1" = [1] from rfl]
  simp only [List.contains, List.elem_nil, Bool.false_eq_true, if_false,
    if_pos rfl, if_true]

/-! ### Claim C2 -/

/-- C2 counterexample: the claim asserts the literal-order rule also for the
place-aggregation path, so place-set "3 1 2" over ranks {1:A, 2:B, 3:C}
would have to yield rider order C, A, B there; `autoplace_riders` instead
renders ascending numeric rank order (" A B C", not " C A B"). -/
theorem C2_place_order_counterexample :
    (autoplace_riders 5 edb1 [] race0 "E1:3 1 2" none false).1 = " A B C" ∧
      " A B C" ≠ " C A B" :=
  ⟨by decide, by decide⟩

/-- C2 amended: literal place-set order (ties kept together under their rank,
in source order) holds on the startlist path — concretely, "3 1 2" over
{1:A, 2:B, 3:C} yields C, A, B, and in general the emission loop appends the
per-rank lists in the literal place-set order — while the place-aggregation
path emits ranks in ascending numeric order. -/
theorem C2_place_order_amended :
    ((autostart_riders 5 edb1 [] race0 "E1:3 1 2" none true).1.riders =
      [(.txt "C", none), (.txt "A", none), (.txt "B", none)]) ∧
    (∀ (pmap : List (Nat × List (Cell × Option Cell))) (ps : List Nat)
      (race : Race),
      emitPlaceset pmap ps race =
        { race with riders := race.riders ++
            ps.flatMap (fun p => (pmLookup pmap p).getD []) }) ∧
    (∀ (ic : Option Nat) (ps : List Nat) (results : List RankedRes) (p : Nat),
      ps.contains p = true →
      (pmLookup (buildPlacemap ic ps results []) p).getD [] =
        rankEntries ic p results) ∧
    ((autoplace_riders 5 edb1 [] race0 "E1:3 1 2" none false).1 = " A B C") := by
  refine ⟨by decide, fun pmap ps race => emitPlaceset_eq pmap ps race,
    fun ic ps results p hp => ?_, by decide⟩
  have hb := buildPlacemap_lookup ic ps p hp results []
  simpa using hb

/-- Closed instantiation of the amended C2 theorem at the 3-1-2 fixture. -/
theorem C2_place_order_amended_witness :
    (pmLookup (buildPlacemap none [3, 1, 2]
        [[.txt "A", .num 1], [.txt "B", .num 2], [.txt "C", .num 3]] [])
        3).getD [] =
      rankEntries none 3
        [[.txt "A", .num 1], [.txt "B", .num 2], [.txt "C", .num 3]] :=
  C2_place_order_amended.2.2.1 none [3, 1, 2] _ 3 (by decide)

/-! ### Claim C3 -/

/-- C3 counterexample: the claim says that with the require-final flag unset
a non-final source is still used, yet `autostart_riders` (which never reads
its `final` parameter) skips the unfinished non-omnium source `edbU` even
with `final=False`; and it says the omnium exception applies to every path,
yet on the place-aggregation path the unfinished omnium source `edbO`
contributes nothing although the target is not a classification. -/
theorem C3_require_final_counterexample :
    (autostart_riders 5 edbU [] race0 "E1:1" none false).1.riders = [] ∧
    (autoplace_riders 5 edbO [] race0 "E1:1" none true).1 = "" :=
  ⟨by decide, by decide⟩

/-- C3 amended: `autostart_riders` ignores its `final` parameter entirely — a
group contributes exactly when the source handler reports finished, or the
source is an omnium and the target not a classification — while
`autoplace_riders` honours `final` (gating on `standingstr() == 'Result'`)
and has no omnium exception. -/
theorem C3_require_final_amended :
    (∀ (fuel : Nat) (edb : REdb) (guard : List String) (race : Race)
      (spec : String) (ic : Option Nat) (b1 b2 : Bool),
      autostart_riders fuel edb guard race spec ic b1 =
        autostart_riders fuel edb guard race spec ic b2) ∧
    (∀ (fuel : Nat) (e : RRec) (race : Race) (ic : Option Nat) (fin : Bool),
      e.hfinished = false →
      (e.evtype == "omnium" && race.evtype != "classification") = false →
      (autostart_riders fuel [("E1", e)] [] race "E1:1" ic fin).1.riders =
        race.riders) ∧
    (∀ (fuel : Nat) (e : RRec) (race : Race) (ic : Option Nat) (fin : Bool),
      (e.evtype == "omnium") = true →
      (race.evtype != "classification") = true →
      (autostart_riders fuel [("E1", e)] [] race "E1:1" ic fin).1.riders =
        race.riders ++ rankEntries ic 1 e.results) ∧
    (∀ (fuel : Nat) (e : RRec) (race : Race) (ic : Option Nat),
      ((e.standing == "Result") = false →
        (autoplace_riders fuel [("E1", e)] [] race "E1:1" ic true).1 = "") ∧
      ((autoplace_riders fuel [("E1", e)] [] race "E1:1" ic false).1 =
        placesString (placeScan [1] e.results []))) := by
  refine ⟨fun _ _ _ _ _ _ _ _ => rfl, ?_, ?_, ?_⟩
  · intro fuel e race ic fin hf ho
    simp only [autostart_riders, autostartCore]
    rw [if_neg (by decide : ¬ ([] : List String).length > MAX_AUTORECURSE)]
    rw [show strSplit ';' "E1:1" = ["E1:1"] from rfl]
    rw [autostartGroups_single]
    rw [hf, ho]
    simp
  · intro fuel e race ic fin ho hc
    simp only [autostart_riders, autostartCore]
    rw [if_neg (by decide : ¬ ([] : List String).length > MAX_AUTORECURSE)]
    rw [show strSplit ';' "E1:1" = ["E1:1"] from rfl]
    rw [autostartGroups_single]
    rw [ho, hc]
    simp
  · intro fuel e race ic
    constructor
    · intro hs
      simp only [autoplace_riders, autoplaceCore]
      rw [show strSplit ';' "E1:1" = ["E1:1"] from rfl]
      rw [autoplaceGroups_single]
      rw [hs]
      simp [placesString, sortNat]
    · simp only [autoplace_riders, autoplaceCore]
      rw [show strSplit ';' "E1:1" = ["E1:1"] from rfl]
      rw [autoplaceGroups_single]
      simp

/-- Closed instantiation of the amended C3 theorem on the fixtures. -/
theorem C3_require_final_amended_witness :
    ((autostart_riders 5 edbU [] race0 "E1:1" none false).1.riders =
      race0.riders) ∧
    ((autostart_riders 5 edbO [] race0 "E1:1" none true).1.riders =
      race0.riders ++ rankEntries none 1 [[.txt "A", .num 1]]) ∧
    ((autoplace_riders 5 edbO [] race0 "E1:1" none true).1 = "") :=
  ⟨C3_require_final_amended.2.1 5 _ race0 none false (by decide) (by decide),
    C3_require_final_amended.2.2.1 5 _ race0 none true (by decide) (by decide),
    (C3_require_final_amended.2.2.2 5 _ race0 none).1 (by decide)⟩

/-! ### Claim C4 -/

/-- C4 counterexample: a twelve-deep place-aggregation chain resolves past
depth 8 — no recursion-limit abort is logged, the missing innermost source
`EX` (reached only at nesting depth twelve) is reported, and the invocation
still produces its rider output — and the model's fuel was not the limiter. -/
theorem C4_depth_bound_counterexample :
    (autoplace_riders 20 psEdb [] race0 "E1:1" none false).2.2.contains
        LogEv.limitExceeded = false ∧
    (autoplace_riders 20 psEdb [] race0 "E1:1" none false).2.2.contains
        (LogEv.notFound "EX") = true ∧
    (autoplace_riders 20 psEdb [] race0 "E1:1" none false).1 = " r" ∧
    (autoplace_riders 20 psEdb [] race0 "E1:1" none false).2.2.contains
        LogEv.fuelOut = false :=
  ⟨by decide, by decide, by decide, by decide⟩

/-- C4 amended: the depth-8 bound belongs to the startlist path only: an
`autostart_riders` invocation aborts outright (no riders, one log line)
whenever more than `MAX_AUTORECURSE = 8` events sit on the recursion guard —
the twelve-deep startlist chain trips it — while `autoplace_riders` carries
no depth check and its twelve-deep chain resolves to the bottom. -/
theorem C4_depth_bound_amended :
    (∀ (fuel : Nat) (edb : REdb) (guard : List String) (race : Race)
      (spec : String) (ic : Option Nat) (fin : Bool),
      guard.length > MAX_AUTORECURSE →
      autostart_riders fuel edb guard race spec ic fin =
        (race, guard, [LogEv.limitExceeded])) ∧
    ((autostart_riders 20 asEdb [] race0 "E1:1" none true).2.2.contains
        LogEv.limitExceeded = true) ∧
    ((autoplace_riders 20 psEdb [] race0 "E1:1" none false).2.2.contains
        LogEv.limitExceeded = false ∧
      (autoplace_riders 20 psEdb [] race0 "E1:1" none false).2.2.contains
        (LogEv.notFound "EX") = true) := by
  refine ⟨?_, by decide, by decide, by decide⟩
  intro fuel edb guard race spec ic fin h
  simp only [autostart_riders, autostartCore]
  rw [if_pos h]

/-- Closed instantiation of the amended C4 theorem at a nine-deep guard. -/
theorem C4_depth_bound_amended_witness :
    autostart_riders 5 psEdb ["g1", "g2", "g3", "g4", "g5", "g6", "g7", "g8",
        "g9"] race0 "E1:1" none true =
      (race0, ["g1", "g2", "g3", "g4", "g5", "g6", "g7", "g8", "g9"],
        [LogEv.limitExceeded]) :=
  C4_depth_bound_amended.1 5 psEdb _ race0 "E1:1" none true (by decide)

/-! ### Claim C7: guard invariance, termination, and cycle skipping -/

/-- Key list of the resolver directory. -/
def keysR (edb : REdb) : List String := edb.map Prod.fst

theorem lookupR_mem_keys {edb : REdb} {e : String} {r : RRec}
    (h : lookupR edb e = some r) : e ∈ keysR edb := by
  induction edb with
  | nil => simp [lookupR] at h
  | cons p rest ih =>
    obtain ⟨k, v⟩ := p
    simp only [lookupR] at h
    by_cases hk : k = e
    · simp [keysR, hk]
    · rw [if_neg hk] at h
      simp only [keysR, List.map_cons, List.mem_cons]
      right
      simpa [keysR] using ih h

/-- The group loop of the startlist path restores the recursion guard. -/
theorem autostartGroups_guard
    (load : List String → String → List String × List LogEv)
    (hg : ∀ g e, (load g e).1 = g) (edb : REdb) :
    ∀ (groups guard : List String) (race : Race) (ic : Option Nat),
      (autostartGroups load edb groups guard race ic).2.1 = guard := by
  intro groups
  induction groups with
  | nil => intro guard race ic; rfl
  | cons g rest ih =>
    intro guard race ic
    simp only [autostartGroups]
    rcases hsp : strSplit ':' g with _ | ⟨a, _ | ⟨b, _ | _⟩⟩ <;>
      simp only [] <;> try exact ih guard race ic
    cases hl : lookupR edb (strTrim a) with
    | none => exact ih guard race ic
    | some e =>
      cases hc : guard.contains (strTrim a) with
      | true => simp only [if_pos rfl]; exact ih guard race ic
      | false =>
        simp only [Bool.false_eq_true, if_false, hg]
        rw [List.erase_cons_head]
        exact ih guard _ ic

/-- The group loop of the place-aggregation path restores the guard. -/
theorem autoplaceGroups_guard
    (load : List String → String → List String × List LogEv)
    (hg : ∀ g e, (load g e).1 = g) (edb : REdb) :
    ∀ (groups guard : List String) (places : List (Nat × List Cell))
      (fin : Bool),
      (autoplaceGroups load edb groups guard places fin).2.1 = guard := by
  intro groups
  induction groups with
  | nil => intro guard places fin; rfl
  | cons g rest ih =>
    intro guard places fin
    simp only [autoplaceGroups]
    rcases hsp : strSplit ':' g with _ | ⟨a, _ | ⟨b, _ | _⟩⟩ <;>
      simp only [] <;> try exact ih guard places fin
    cases hc : guard.contains (strTrim a) with
    | true => simp only [if_pos rfl]; exact ih guard places fin
    | false =>
      simp only [Bool.false_eq_true, if_false]
      cases hl : lookupR edb (strTrim a) with
      | some e =>
        simp only [hg]
        rw [List.erase_cons_head]
        exact ih guard _ fin
      | none =>
        rw [List.erase_cons_head]
        exact ih guard places fin

/-- `loadconfig` leaves the recursion guard as it found it (every add is
paired with a remove). -/
theorem loadEvent_guard :
    ∀ (fuel : Nat) (edb : REdb) (guard : List String) (evno : String),
      (loadEvent fuel edb guard evno).1 = guard := by
  intro fuel
  induction fuel with
  | zero => intro edb guard evno; rfl
  | succ f ihf =>
    intro edb guard evno
    simp only [loadEvent]
    cases hl : lookupR edb evno with
    | none => rfl
    | some r =>
      dsimp only
      cases hu : r.usePlace with
      | true =>
        rw [if_pos rfl]
        simp only [autoplaceCore]
        exact autoplaceGroups_guard (loadEvent f edb) (ihf edb) edb _ guard [] true
      | false =>
        rw [if_neg (by simp)]
        simp only [autostartCore]
        by_cases hlen : guard.length > MAX_AUTORECURSE
        · rw [if_pos hlen]
        · rw [if_neg hlen]
          exact autostartGroups_guard (loadEvent f edb) (ihf edb) edb _ guard _ none

/-- Two `loadconfig` actions that restore the guard and agree on fresh
directory events produce the same startlist group loop. -/
theorem autostartGroups_congr
    (load1 load2 : List String → String → List String × List LogEv)
    (edb : REdb) (guard : List String)
    (hg1 : ∀ g e, (load1 g e).1 = g)
    (hagree : ∀ e, lookupR edb e ≠ none → guard.contains e = false →
      load1 (e :: guard) e = load2 (e :: guard) e) :
    ∀ (groups : List String) (race : Race) (ic : Option Nat),
      autostartGroups load1 edb groups guard race ic =
        autostartGroups load2 edb groups guard race ic := by
  intro groups
  induction groups with
  | nil => intro race ic; rfl
  | cons g rest ih =>
    intro race ic
    rcases hsp : strSplit ':' g with _ | ⟨a, _ | ⟨b, _ | ⟨c, tl3⟩⟩⟩
    · simp only [autostartGroups, hsp]
      rw [ih]
    · simp only [autostartGroups, hsp]
      rw [ih]
    case cons.cons.cons.cons =>
      simp only [autostartGroups, hsp]
      rw [ih]
    simp only [autostartGroups, hsp]
    cases hl : lookupR edb (strTrim a) with
    | none =>
      dsimp only
      rw [ih]
    | some e =>
      dsimp only
      cases hc : guard.contains (strTrim a) with
      | true =>
        rw [if_pos rfl, if_pos rfl]
        rw [ih]
      | false =>
        simp only [Bool.false_eq_true, if_false]
        rw [hagree (strTrim a) (by rw [hl]; exact fun h => Option.noConfusion h) hc]
        have hg2 : (load2 (strTrim a :: guard) (strTrim a)).1 =
            strTrim a :: guard := by
          rw [← hagree (strTrim a)
            (by rw [hl]; exact fun h => Option.noConfusion h) hc]
          exact hg1 _ _
        rw [hg2, List.erase_cons_head, ih]

/-- The same congruence for the place-aggregation group loop. -/
theorem autoplaceGroups_congr
    (load1 load2 : List String → String → List String × List LogEv)
    (edb : REdb) (guard : List String)
    (hg1 : ∀ g e, (load1 g e).1 = g)
    (hagree : ∀ e, lookupR edb e ≠ none → guard.contains e = false →
      load1 (e :: guard) e = load2 (e :: guard) e) :
    ∀ (groups : List String) (places : List (Nat × List Cell)) (fin : Bool),
      autoplaceGroups load1 edb groups guard places fin =
        autoplaceGroups load2 edb groups guard places fin := by
  intro groups
  induction groups with
  | nil => intro places fin; rfl
  | cons g rest ih =>
    intro places fin
    rcases hsp : strSplit ':' g with _ | ⟨a, _ | ⟨b, _ | ⟨c, tl3⟩⟩⟩
    · simp only [autoplaceGroups, hsp]
      rw [ih]
    · simp only [autoplaceGroups, hsp]
      rw [ih]
    case cons.cons.cons.cons =>
      simp only [autoplaceGroups, hsp]
      rw [ih]
    simp only [autoplaceGroups, hsp]
    cases hc : guard.contains (strTrim a) with
    | true =>
      rw [if_pos rfl, if_pos rfl]
      rw [ih]
    | false =>
      simp only [Bool.false_eq_true, if_false]
      cases hl : lookupR edb (strTrim a) with
      | some e =>
        dsimp only
        rw [hagree (strTrim a) (by rw [hl]; exact fun h => Option.noConfusion h) hc]
        have hg2 : (load2 (strTrim a :: guard) (strTrim a)).1 =
            strTrim a :: guard := by
          rw [← hagree (strTrim a)
            (by rw [hl]; exact fun h => Option.noConfusion h) hc]
          exact hg1 _ _
        rw [hg2, List.erase_cons_head, ih]
      | none =>
        dsimp only
        rw [List.erase_cons_head, ih]

/-- Fuel irrelevance of the handler recursion: once the fuel exceeds the
number of directory keys outside the guard, the result no longer depends on
it — the resolver terminates on every graph, cyclic ones included. -/
theorem loadEvent_fuel :
    ∀ (f g : Nat) (edb : REdb) (guard : List String) (evno : String),
      countFree (keysR edb) guard < f → countFree (keysR edb) guard < g →
      loadEvent f edb guard evno = loadEvent g edb guard evno := by
  intro f
  induction f with
  | zero => intro g edb guard evno hf _; exact absurd hf (by omega)
  | succ f ihf =>
    intro g edb guard evno hf hg
    cases g with
    | zero => exact absurd hg (by omega)
    | succ g2 =>
      simp only [loadEvent]
      cases hl : lookupR edb evno with
      | none => rfl
      | some r =>
        have hagree : ∀ e2, lookupR edb e2 ≠ none → guard.contains e2 = false →
            loadEvent f edb (e2 :: guard) e2 = loadEvent g2 edb (e2 :: guard) e2 := by
          intro e2 hsome hnc
          cases hl2 : lookupR edb e2 with
          | none => exact absurd hl2 hsome
          | some r2 =>
            have hmem : e2 ∈ keysR edb := lookupR_mem_keys hl2
            have hdec : countFree (keysR edb) (e2 :: guard) <
                countFree (keysR edb) guard := countFree_cons_lt _ _ _ hmem hnc
            exact ihf g2 edb (e2 :: guard) e2 (by omega) (by omega)
        dsimp only
        cases hu : r.usePlace with
        | true =>
          rw [if_pos rfl, if_pos rfl]
          simp only [autoplaceCore]
          rw [autoplaceGroups_congr (loadEvent f edb) (loadEvent g2 edb) edb
            guard (loadEvent_guard f edb) hagree]
        | false =>
          rw [if_neg (by simp), if_neg (by simp)]
          simp only [autostartCore]
          by_cases hlen : guard.length > MAX_AUTORECURSE
          · rw [if_pos hlen, if_pos hlen]
          · rw [if_neg hlen, if_neg hlen]
            rw [autostartGroups_congr (loadEvent f edb) (loadEvent g2 edb) edb
              guard (loadEvent_guard f edb) hagree]

/-- A group whose source already sits on the recursion guard adds no riders
on the startlist path. -/
theorem autostartGroups_skip
    (load : List String → String → List String × List LogEv) (edb : REdb)
    (gs a b : String) (rest : List String) (guard : List String) (race : Race)
    (ic : Option Nat) (e : RRec) (hsp : strSplit ':' gs = [a, b])
    (hl : lookupR edb (strTrim a) = some e)
    (hc : guard.contains (strTrim a) = true) :
    (autostartGroups load edb (gs :: rest) guard race ic).1 =
      (autostartGroups load edb rest guard race ic).1 := by
  simp only [autostartGroups, hsp, hl, hc, if_pos rfl]
  rw [if_pos trivial]

/-- A group whose source already sits on the recursion guard contributes no
places on the aggregation path. -/
theorem autoplaceGroups_skip
    (load : List String → String → List String × List LogEv) (edb : REdb)
    (gs a b : String) (rest : List String) (guard : List String)
    (places : List (Nat × List Cell)) (fin : Bool)
    (hsp : strSplit ':' gs = [a, b])
    (hc : guard.contains (strTrim a) = true) :
    (autoplaceGroups load edb (gs :: rest) guard places fin).1 =
      (autoplaceGroups load edb rest guard places fin).1 := by
  simp only [autoplaceGroups, hsp, hc, if_pos rfl]
  rw [if_pos trivial]

/-- A cyclic two-event startlist autospec graph. -/
def cycEdb : REdb := [("E1", asRec "E2"), ("E2", asRec "E1")]

/-- A cyclic two-event dependency graph with one dirty event. -/
def cdepEdb : Edb :=
  [("E1", { depe := ["E2"], dirty := true }),
   ("E2", { depe := ["E1"], dirty := false })]

/-- C7: on every dependency or autospec graph — cyclic ones included —
propagation and resolution terminate: `check_depends_dirty` and the handler
recursion stabilize once the fuel exceeds the number of directory keys
outside the visited set / recursion guard, and a source event already on the
active recursion guard is skipped, contributing no riders (startlist path)
and no places (aggregation path), so re-entrant resolution never
double-counts it. -/
theorem C7_cycle_termination :
    (∀ (f g : Nat) (edb : Edb) (checked : List String) (evno : String),
      countFree (keysOf edb) (evno :: checked) < f →
      countFree (keysOf edb) (evno :: checked) < g →
      checkDepends f edb checked evno = checkDepends g edb checked evno) ∧
    (∀ (f g : Nat) (edb : REdb) (guard : List String) (evno : String),
      countFree (keysR edb) guard < f → countFree (keysR edb) guard < g →
      loadEvent f edb guard evno = loadEvent g edb guard evno) ∧
    (∀ (load : List String → String → List String × List LogEv) (edb : REdb)
      (gs a b : String) (rest guard : List String) (race : Race)
      (ic : Option Nat) (e : RRec), strSplit ':' gs = [a, b] →
      lookupR edb (strTrim a) = some e →
      guard.contains (strTrim a) = true →
      (autostartGroups load edb (gs :: rest) guard race ic).1 =
        (autostartGroups load edb rest guard race ic).1) ∧
    (∀ (load : List String → String → List String × List LogEv) (edb : REdb)
      (gs a b : String) (rest guard : List String)
      (places : List (Nat × List Cell)) (fin : Bool),
      strSplit ':' gs = [a, b] → guard.contains (strTrim a) = true →
      (autoplaceGroups load edb (gs :: rest) guard places fin).1 =
        (autoplaceGroups load edb rest guard places fin).1) :=
  ⟨checkDepends_fuel, loadEvent_fuel,
    fun load edb gs a b rest guard race ic e hsp hl hc =>
      autostartGroups_skip load edb gs a b rest guard race ic e hsp hl hc,
    fun load edb gs a b rest guard places fin hsp hc =>
      autoplaceGroups_skip load edb gs a b rest guard places fin hsp hc⟩

/-- Closed instantiation of C7 on the cyclic fixtures. -/
theorem C7_cycle_termination_witness :
    (checkDepends 3 cdepEdb [] "E2" = checkDepends 7 cdepEdb [] "E2") ∧
    (loadEvent 3 cycEdb [] "E1" = loadEvent 9 cycEdb [] "E1") ∧
    ((autostartGroups (loadEvent 5 cycEdb) cycEdb ["E2:1"] ["E2"] race0
        none).1 =
      (autostartGroups (loadEvent 5 cycEdb) cycEdb [] ["E2"] race0 none).1) ∧
    ((autoplaceGroups (loadEvent 5 psEdb) psEdb ["E2:1"] ["E2"] [] true).1 =
      (autoplaceGroups (loadEvent 5 psEdb) psEdb [] ["E2"] [] true).1) :=
  ⟨C7_cycle_termination.1 3 7 cdepEdb [] "E2" (by decide) (by decide),
    C7_cycle_termination.2.1 3 9 cycEdb [] "E1" (by decide) (by decide),
    C7_cycle_termination.2.2.1 (loadEvent 5 cycEdb) cycEdb "E2:1" "E2" "1" []
      ["E2"] race0 none (asRec "E1") (by decide) (by decide) (by decide),
    C7_cycle_termination.2.2.2 (loadEvent 5 psEdb) psEdb "E2:1" "E2" "1" []
      ["E2"] [] true (by decide) (by decide)⟩

/-! ### Communique allocator (`find_communique`) -/

/-- `MAXREP = 10000`: communique max number. -/
def MAXREP : Nat := 10000

/-- Plain association lookup on the communique map (first binding wins; a
Python dict has unique keys). -/
def lookupC : List (String × String) → String → Option String
  | [], _ => none
  | (k, v) :: rest, e => if k = e then some v else lookupC rest e

/-- The key scan of `find_communique`: walk the allocation map in insertion
order, stopping with the existing identifier when the key is found and
collecting the identifiers of the keys passed over into `noset`. -/
def scanAlloc : List (String × String) → String → Option String × List String
  | [], _ => (none, [])
  | (k, v) :: rest, lookup =>
    if k = lookup then (some v, [])
    else
      let r := scanAlloc rest lookup
      (r.1, v :: r.2)

/-- The allocation loop of `find_communique`: try `str(cnt)` counting up;
allocate at the first candidate not in `noset`; once the next counter would
pass `MAXREP`, give up — returning the last candidate tried, without
allocating.  `fuel` only mirrors the loop's own bound; `MAXREP` fuel is
always enough. -/
def allocLoop (noset : List String) : Nat → Nat → String × Bool
  | fuel, cnt =>
    let ret := natToStr cnt
    if noset.contains ret then
      if cnt + 1 > MAXREP then (ret, false)
      else
        match fuel with
        | 0 => (ret, false)
        | f + 1 => allocLoop noset f (cnt + 1)
    else (ret, true)

/-- `find_communique(lookup)`: return the already-assigned identifier when
the key is known; otherwise scan upward from 1 for the first integer string
not assigned to another key, record it, and return it; on exhaustion the
last candidate is returned with no record made. -/
def find_communique (commalloc : List (String × String)) (lookup : String) :
    String × List (String × String) :=
  let s := scanAlloc commalloc lookup
  match s.1 with
  | some v => (v, commalloc)
  | none =>
    let r := allocLoop s.2 MAXREP 1
    if r.2 then (r.1, commalloc ++ [(lookup, r.1)]) else (r.1, commalloc)

theorem scanAlloc_found :
    ∀ (m : List (String × String)) (k v : String), lookupC m k = some v →
      (scanAlloc m k).1 = some v := by
  intro m
  induction m with
  | nil => intro k v h; simp [lookupC] at h
  | cons p rest ih =>
    intro k v h
    obtain ⟨k1, v1⟩ := p
    simp only [lookupC] at h
    simp only [scanAlloc]
    by_cases hk : k1 = k
    · rw [if_pos hk] at h
      rw [if_pos hk]
      exact h
    · rw [if_neg hk] at h
      rw [if_neg hk]
      exact ih k v h

theorem scanAlloc_none :
    ∀ (m : List (String × String)) (k : String), lookupC m k = none →
      scanAlloc m k = (none, m.map Prod.snd) := by
  intro m
  induction m with
  | nil => intro k _; rfl
  | cons p rest ih =>
    intro k h
    obtain ⟨k1, v1⟩ := p
    simp only [lookupC] at h
    simp only [scanAlloc]
    by_cases hk : k1 = k
    · rw [if_pos hk] at h
      exact absurd h (by simp)
    · rw [if_neg hk] at h
      rw [if_neg hk, ih k h]
      simp

/-- The loop returns the first free candidate at or above `cnt`. -/
theorem allocLoop_finds (noset : List String) :
    ∀ (k fuel cnt n : Nat), n - cnt = k → cnt ≤ n → n ≤ MAXREP →
      (∀ j, cnt ≤ j → j < n → noset.contains (natToStr j) = true) →
      noset.contains (natToStr n) = false →
      n - cnt ≤ fuel →
      allocLoop noset fuel cnt = (natToStr n, true) := by
  intro k
  induction k with
  | zero =>
    intro fuel cnt n hk hle hmax hall hfree hfuel
    have hcn : n = cnt := by omega
    subst hcn
    cases fuel with
    | zero =>
      simp only [allocLoop]
      rw [if_neg (by rw [hfree]; simp)]
    | succ f =>
      simp only [allocLoop]
      rw [if_neg (by rw [hfree]; simp)]
  | succ k2 ihk =>
    intro fuel cnt n hk hle hmax hall hfree hfuel
    have hlt : cnt < n := by omega
    have hcur : noset.contains (natToStr cnt) = true := hall cnt le_rfl hlt
    cases fuel with
    | zero => omega
    | succ f =>
      simp only [allocLoop]
      rw [if_pos hcur, if_neg (by omega : ¬ cnt + 1 > MAXREP)]
      exact ihk f (cnt + 1) n (by omega) (by omega) hmax
        (fun j h1 h2 => hall j (by omega) h2) hfree (by omega)

/-- When every candidate up to the ceiling is taken, the loop gives up and
hands back the ceiling's own string. -/
theorem allocLoop_exhaust (noset : List String) :
    ∀ (k fuel cnt : Nat), MAXREP - cnt = k → 1 ≤ cnt → cnt ≤ MAXREP →
      (∀ j, cnt ≤ j → j ≤ MAXREP → noset.contains (natToStr j) = true) →
      MAXREP - cnt ≤ fuel →
      allocLoop noset fuel cnt = (natToStr MAXREP, false) := by
  intro k
  induction k with
  | zero =>
    intro fuel cnt hk h1 hmax hall hfuel
    have hcn : cnt = MAXREP := by omega
    rw [hcn]
    have hcur : noset.contains (natToStr MAXREP) = true :=
      hall MAXREP (by omega) le_rfl
    cases fuel with
    | zero =>
      simp only [allocLoop]
      rw [if_pos hcur, if_pos (by omega : MAXREP + 1 > MAXREP)]
    | succ f =>
      simp only [allocLoop]
      rw [if_pos hcur, if_pos (by omega : MAXREP + 1 > MAXREP)]
  | succ k2 ihk =>
    intro fuel cnt hk h1 hmax hall hfuel
    have hlt : cnt < MAXREP := by omega
    have hcur : noset.contains (natToStr cnt) = true :=
      hall cnt le_rfl (by omega)
    cases fuel with
    | zero => omega
    | succ f =>
      simp only [allocLoop]
      rw [if_pos hcur, if_neg (by omega : ¬ cnt + 1 > MAXREP)]
      exact ihk f (cnt + 1) (by omega) (by omega) (by omega)
        (fun j hj1 hj2 => hall j (by omega) hj2) (by omega)

theorem lookupC_append_new :
    ∀ (m : List (String × String)) (k v : String), lookupC m k = none →
      lookupC (m ++ [(k, v)]) k = some v := by
  intro m
  induction m with
  | nil => intro k v _; simp [lookupC]
  | cons p rest ih =>
    intro k v h
    obtain ⟨k1, v1⟩ := p
    simp only [lookupC] at h ⊢
    by_cases hk : k1 = k
    · rw [if_pos hk] at h
      exact absurd h (by simp)
    · rw [if_neg hk] at h
      rw [if_neg hk]
      exact ih k v h

/-! ### Claim C5 -/

/-- C5: `find_communique` is idempotent — a known key gets its stored
identifier back with the map unchanged; a fresh key gets the smallest free
integer string recorded and returned, an identifier not assigned to any
other key, and a repeated call then returns that same identifier with no
further change. -/
theorem C5_find_communique :
    (∀ (m : List (String × String)) (lookup v : String),
      lookupC m lookup = some v → find_communique m lookup = (v, m)) ∧
    (∀ (m : List (String × String)) (lookup : String) (n : Nat),
      lookupC m lookup = none → 1 ≤ n → n ≤ MAXREP →
      (∀ j, 1 ≤ j → j < n → (m.map Prod.snd).contains (natToStr j) = true) →
      (m.map Prod.snd).contains (natToStr n) = false →
      find_communique m lookup = (natToStr n, m ++ [(lookup, natToStr n)]) ∧
      find_communique (m ++ [(lookup, natToStr n)]) lookup =
        (natToStr n, m ++ [(lookup, natToStr n)])) := by
  constructor
  · intro m lookup v h
    have hs := scanAlloc_found m lookup v h
    simp only [find_communique]
    rw [hs]
  · intro m lookup n hnone h1 hmax hall hfree
    have hs := scanAlloc_none m lookup hnone
    have hloop := allocLoop_finds (m.map Prod.snd) (n - 1) MAXREP 1 n rfl
      (by omega) hmax (fun j hj1 hj2 => hall j hj1 hj2) hfree (by omega)
    constructor
    · simp only [find_communique]
      rw [hs]
      dsimp only
      rw [hloop]
      rfl
    · have hfound := lookupC_append_new m lookup (natToStr n) hnone
      have hsf := scanAlloc_found (m ++ [(lookup, natToStr n)]) lookup
        (natToStr n) hfound
      simp only [find_communique]
      rw [hsf]

/-- Closed instantiation of C5 on a two-entry map. -/
theorem C5_find_communique_witness :
    find_communique [("resultE1E2", "1")] "resultE1E2" =
        ("1", [("resultE1E2", "1")]) ∧
      find_communique [("resultE1E2", "1")] "other" =
        ("2", [("resultE1E2", "1"), ("other", "2")]) :=
  ⟨C5_find_communique.1 [("resultE1E2", "1")] "resultE1E2" "1" (by decide),
    ((C5_find_communique.2 [("resultE1E2", "1")] "other" 2 (by decide)
      (by decide) (by decide) (by decide) (by decide)).1)⟩

/-! ### Claim C6 -/

/-- Exhaustion path of `find_communique`: when a fresh key finds every
integer string from 1 to `MAXREP` already assigned, the function returns
`str(MAXREP)` — the last candidate tried — and records nothing. -/
theorem find_communique_exhausted
    (m : List (String × String)) (lookup : String)
    (hnone : lookupC m lookup = none)
    (hall : ∀ j, 1 ≤ j → j ≤ MAXREP →
      (m.map Prod.snd).contains (natToStr j) = true) :
    find_communique m lookup = (natToStr MAXREP, m) := by
  have hs := scanAlloc_none m lookup hnone
  have hloop := allocLoop_exhaust (m.map Prod.snd) (MAXREP - 1) MAXREP 1 rfl
    le_rfl (by decide) (fun j h1 h2 => hall j h1 h2) (by omega)
  simp only [find_communique]
  rw [hs]
  dsimp only
  rw [hloop]
  rfl

/-- A full allocation map: keys `k0 … k9999` holding identifiers
`"1" … "10000"`. -/
def bigmap : List (String × String) :=
  (List.range MAXREP).map (fun i => ("k" ++ natToStr i, natToStr (i + 1)))

theorem bigmap_values :
    bigmap.map Prod.snd = (List.range MAXREP).map (fun i => natToStr (i + 1)) := by
  simp [bigmap, List.map_map]

theorem bigmap_values_full (j : Nat) (h1 : 1 ≤ j) (h2 : j ≤ MAXREP) :
    (bigmap.map Prod.snd).contains (natToStr j) = true := by
  rw [bigmap_values]
  have hmem : natToStr j ∈ (List.range MAXREP).map (fun i => natToStr (i + 1)) := by
    refine List.mem_map.mpr ⟨j - 1, List.mem_range.mpr (by omega), ?_⟩
    congr 1
    omega
  exact List.elem_eq_true_of_mem hmem

theorem bigmap_fresh : lookupC bigmap "fresh" = none := by
  have hkey : ∀ p ∈ bigmap, p.1 ≠ "fresh" := by
    intro p hp
    obtain ⟨i, _, rfl⟩ := List.mem_map.mp hp
    intro h
    have hd := congrArg String.data h
    rw [String.data_append] at hd
    simp at hd
  clear hkey
  have : ∀ (l : List (String × String)), (∀ p ∈ l, p.1 ≠ "fresh") →
      lookupC l "fresh" = none := by
    intro l
    induction l with
    | nil => intro _; rfl
    | cons p rest ih =>
      intro hl
      obtain ⟨k1, v1⟩ := p
      simp only [lookupC]
      rw [if_neg (hl (k1, v1) (List.mem_cons_self _ _))]
      exact ih (fun q hq => hl q (List.mem_cons_of_mem _ hq))
  refine this bigmap ?_
  intro p hp
  obtain ⟨i, _, rfl⟩ := List.mem_map.mp hp
  intro h
  have hd := congrArg String.data h
  rw [String.data_append] at hd
  simp at hd

/-- C6: at the failing input — a map holding identifiers "1" through
"10000" for ten thousand other keys — `find_communique` on a new key does
not return a sentinel: it hands back "10000", an identifier already assigned
to another key, and records no allocation for the new key.  (The initial
`ret = None` and the caller's `if commno is not None` check show `None` was
the intended failure sentinel, but the loop overwrites `ret` with the last
candidate before giving up.) -/
theorem C6_exhaustion_behavior :
    find_communique bigmap "fresh" = (natToStr MAXREP, bigmap) ∧
      (bigmap.map Prod.snd).contains (natToStr MAXREP) = true ∧
      lookupC bigmap "fresh" = none :=
  ⟨find_communique_exhausted bigmap "fresh" bigmap_fresh
      (fun j h1 h2 => bigmap_values_full j h1 h2),
    bigmap_values_full MAXREP (by decide) le_rfl,
    bigmap_fresh⟩

/-! ### Export entry point (`menu_data_export_activate_cb`) -/

/-- Observable state of the export machinery: whether the export lock is
held by another caller, and the exporter handle — `none` when no worker
handle exists, `some alive` otherwise. -/
structure ExpState where
  lockHeld : Bool
  exporter : Option Bool
deriving DecidableEq

/-- `menu_data_export_activate_cb`: the non-blocking
`exportlock.acquire(False)` fails while the lock is held; with the lock, a
live exporter handle rejects the request, a stale handle is removed without
starting a worker, and only an absent handle starts a new worker; the lock
is released in the `finally`.  The second component reports whether a
worker was started. -/
def menu_data_export (s : ExpState) : ExpState × Bool :=
  if s.lockHeld then (s, false)
  else
    match s.exporter with
    | some alive =>
      if alive then (s, false)
      else ({ s with exporter := none }, false)
    | none => ({ s with exporter := some true }, true)

/-! ### Claim C8 -/

/-- C8: the export pass is single-flight — while a previously started worker
is still executing, a new request returns immediately without starting or
queuing anything, and a worker is only ever started from a state with no
worker handle at all, so at most one worker exists at any time. -/
theorem C8_single_flight :
    (∀ s : ExpState, s.exporter = some true →
      menu_data_export s = (s, false)) ∧
    (∀ s : ExpState, (menu_data_export s).2 = true →
      s.lockHeld = false ∧ s.exporter = none) := by
  constructor
  · intro s h
    obtain ⟨lk, ex⟩ := s
    simp only at h
    subst h
    cases lk <;> rfl
  · intro s h
    obtain ⟨lk, ex⟩ := s
    cases lk with
    | true => simp [menu_data_export] at h
    | false =>
      cases ex with
      | none => exact ⟨rfl, rfl⟩
      | some alive => cases alive <;> simp [menu_data_export] at h

/-- Closed instantiation of C8 with a live worker. -/
theorem C8_single_flight_witness :
    menu_data_export { lockHeld := false, exporter := some true } =
      ({ lockHeld := false, exporter := some true }, false) :=
  C8_single_flight.1 { lockHeld := false, exporter := some true } rfl

/-! ### Export pass (`__run_data_export`) -/

/-- The artifact files written for one event (`event_<evno>.html`,
`event_<evno>.json`, `event_<evno>_startlist.json`,
`event_<evno>_result.json`). -/
inductive Artifact
  | html (evno : String)
  | json (evno : String)
  | startJson (evno : String)
  | resultJson (evno : String)
deriving DecidableEq

/-- The event an artifact belongs to. -/
def artEvno : Artifact → String
  | .html e => e
  | .json e => e
  | .startJson e => e
  | .resultJson e => e

/-- The dirty scan of `__run_data_export`: walk the directory in order,
running `check_depends_dirty` on each event (threading the propagated
flags) and collecting the events reported dirty into `dmap`. -/
def scanDirty (fuel : Nat) : List String → Edb → List String × Edb
  | [], edb => ([], edb)
  | evno :: rest, edb =>
    let r := checkDepends fuel edb [] evno
    let s := scanDirty fuel rest r.2
    (if r.1 then evno :: s.1 else s.1, s.2)

/-- `e['dirty'] = False` on the record stored under `e`. -/
def clearDirty (edb : Edb) (e : String) : Edb :=
  edb.map (fun p => if p.1 = e then (p.1, { p.2 with dirty := false }) else p)

/-- The per-event export loop of `__run_data_export`: read `doexport` from
the record's result flag, clear the event's dirty flag unconditionally, and
write the event's artifact set only under `doexport`. -/
def exportPhase : List String → Edb → List Artifact → Edb × List Artifact
  | [], edb, arts => (edb, arts)
  | evno :: rest, edb, arts =>
    match lookupE edb evno with
    | none => exportPhase rest edb arts
    | some r =>
      exportPhase rest (clearDirty edb evno)
        (arts ++ (if r.res then
          [.html evno, .json evno, .startJson evno, .resultJson evno]
        else []))

/-- The body of `__run_data_export` (navigation-link recomputation and the
rendering internals lie outside this model): compute the dirty set, then
export it in scan order. -/
def runDataExport (fuel : Nat) (edb : Edb) : Edb × List Artifact :=
  let s := scanDirty fuel (keysOf edb) edb
  exportPhase s.1 s.2 []

theorem lookup_clearDirty (edb : Edb) (x e : String) :
    lookupE (clearDirty edb x) e =
      if e = x then (lookupE edb e).map (fun r => { r with dirty := false })
      else lookupE edb e := by
  induction edb with
  | nil => simp only [clearDirty, List.map_nil, lookupE]; split <;> rfl
  | cons p rest ih =>
    obtain ⟨k, r⟩ := p
    simp only [clearDirty, List.map_cons] at ih ⊢
    by_cases hx : k = x
    · subst hx
      simp only [if_pos rfl]
      by_cases hk : k = e
      · subst hk
        simp [lookupE]
      · simp [lookupE, hk, Ne.symm hk, ih]
    · simp only [if_neg hx]
      by_cases hk : k = e
      · subst hk
        simp [lookupE, hx]
      · simp [lookupE, hk, ih]

theorem dirtyOf_clearDirty_self (edb : Edb) (x : String) :
    dirtyOf (clearDirty edb x) x = false := by
  simp only [dirtyOf, lookup_clearDirty, if_pos rfl]
  cases lookupE edb x <;> simp

theorem dirtyOf_clearDirty_ne (edb : Edb) {x e : String} (h : e ≠ x) :
    dirtyOf (clearDirty edb x) e = dirtyOf edb e := by
  simp [dirtyOf, lookup_clearDirty, h]

/-- Once false, a dirty flag stays false through the export loop (the loop
only ever clears flags). -/
theorem exportPhase_false :
    ∀ (dmap : List String) (edb : Edb) (arts : List Artifact) (e : String),
      dirtyOf edb e = false → dirtyOf (exportPhase dmap edb arts).1 e = false := by
  intro dmap
  induction dmap with
  | nil => intro edb arts e h; exact h
  | cons evno rest ih =>
    intro edb arts e h
    simp only [exportPhase]
    cases hl : lookupE edb evno with
    | none => exact ih edb arts e h
    | some r =>
      refine ih _ _ e ?_
      by_cases hx : e = evno
      · subst hx; exact dirtyOf_clearDirty_self edb e
      · rw [dirtyOf_clearDirty_ne edb hx]; exact h

/-- Every event on the dirty list comes out of the export loop with its
flag cleared. -/
theorem exportPhase_clears :
    ∀ (dmap : List String) (edb : Edb) (arts : List Artifact) (e : String),
      e ∈ dmap → dirtyOf (exportPhase dmap edb arts).1 e = false := by
  intro dmap
  induction dmap with
  | nil => intro edb arts e h; exact absurd h (List.not_mem_nil e)
  | cons evno rest ih =>
    intro edb arts e hmem
    simp only [exportPhase]
    rcases List.mem_cons.mp hmem with rfl | hr
    · cases hl : lookupE edb e with
      | none =>
        refine exportPhase_false rest edb arts e ?_
        simp [dirtyOf, hl]
      | some r =>
        exact exportPhase_false rest _ _ e (dirtyOf_clearDirty_self edb e)
    · cases hl : lookupE edb evno with
      | none => exact ih edb arts e hr
      | some r => exact ih _ _ e hr

/-- An event whose stored record carries the result-export flag. -/
def ResT (edb : Edb) (e : String) : Prop :=
  ∃ r, lookupE edb e = some r ∧ r.res = true

theorem resT_clearDirty {edb : Edb} {x e : String}
    (h : ResT (clearDirty edb x) e) : ResT edb e := by
  obtain ⟨r, hl, hres⟩ := h
  rw [lookup_clearDirty] at hl
  by_cases hx : e = x
  · rw [if_pos hx] at hl
    cases hl0 : lookupE edb e with
    | none => rw [hl0] at hl; simp at hl
    | some r0 =>
      rw [hl0] at hl
      simp only [Option.map_some'] at hl
      refine ⟨r0, hl0, ?_⟩
      have := Option.some_inj.mp hl
      rw [← this] at hres
      exact hres
  · rw [if_neg hx] at hl
    exact ⟨r, hl, hres⟩

/-- Every artifact the export loop writes belongs to an event whose record
carries the result-export flag. -/
theorem exportPhase_arts :
    ∀ (dmap : List String) (edb : Edb) (arts : List Artifact),
      ∀ a ∈ (exportPhase dmap edb arts).2,
        a ∈ arts ∨ ResT edb (artEvno a) := by
  intro dmap
  induction dmap with
  | nil => intro edb arts a ha; exact Or.inl ha
  | cons evno rest ih =>
    intro edb arts a ha
    simp only [exportPhase] at ha
    cases hl : lookupE edb evno with
    | none =>
      rw [hl] at ha
      exact ih edb arts a ha
    | some r =>
      rw [hl] at ha
      rcases ih _ _ a ha with hmem | hres
      · rcases List.mem_append.mp hmem with h1 | h2
        · exact Or.inl h1
        · right
          cases hr : r.res with
          | false => rw [hr] at h2; simp at h2
          | true =>
            rw [hr] at h2
            have hev : artEvno a = evno := by
              rcases List.mem_cons.mp h2 with rfl | h2
              · rfl
              rcases List.mem_cons.mp h2 with rfl | h2
              · rfl
              rcases List.mem_cons.mp h2 with rfl | h2
              · rfl
              rcases List.mem_cons.mp h2 with rfl | h2
              · rfl
              exact absurd h2 (List.not_mem_nil a)
            rw [hev]
            exact ⟨r, hl, hr⟩
      · exact Or.inr (resT_clearDirty hres)

theorem monoLE_resT {a b : Edb} (h : MonoLE a b) {e : String}
    (hr : ResT b e) : ResT a e := by
  obtain ⟨r, hl, hres⟩ := hr
  have h2 := (h e).2.1
  cases ha : lookupE a e with
  | none => rw [ha, hl] at h2; simp at h2
  | some r0 =>
    rw [ha, hl] at h2
    simp only [Option.map_some'] at h2
    refine ⟨r0, ha, ?_⟩
    rw [Option.some_inj.mp h2]
    exact hres

/-- The dirty scan only propagates flags: a shape-preserving monotone step. -/
theorem scanDirty_mono (fuel : Nat) :
    ∀ (keys : List String) (edb : Edb),
      MonoLE edb (scanDirty fuel keys edb).2 := by
  intro keys
  induction keys with
  | nil => intro edb; exact monoLE_refl edb
  | cons evno rest ih =>
    intro edb
    exact monoLE_trans (checkDepends_props fuel edb [] evno).2.1
      (ih (checkDepends fuel edb [] evno).2)

/-! ### Claim C9 -/

/-- C9: during one export pass every event the dependency scan reports dirty
comes out with its dirty flag set to false, and every artifact written in
the pass belongs to an event whose result-export flag is set — so an event
with the flag unset has no artifacts written yet still has its staleness
record cleared. -/
theorem C9_export_clears_dirty :
    (∀ (fuel : Nat) (edb : Edb) (evno : String),
      evno ∈ (scanDirty fuel (keysOf edb) edb).1 →
      dirtyOf (runDataExport fuel edb).1 evno = false) ∧
    (∀ (fuel : Nat) (edb : Edb) (a : Artifact),
      a ∈ (runDataExport fuel edb).2 →
      ∃ r, lookupE edb (artEvno a) = some r ∧ r.res = true) := by
  constructor
  · intro fuel edb evno hmem
    exact exportPhase_clears _ _ [] evno hmem
  · intro fuel edb a ha
    rcases exportPhase_arts _ _ [] a ha with h1 | h2
    · exact absurd h1 (List.not_mem_nil a)
    · exact monoLE_resT (scanDirty_mono fuel (keysOf edb) edb) h2

/-- The two-event fixture for C9: `E1` is dirty but not flagged for result
export; `E2` depends on `E1` and is flagged. -/
def expEdb : Edb :=
  [("E1", { depe := [], dirty := true, res := false }),
   ("E2", { depe := ["E1"], dirty := false, res := true })]

/-- Closed instantiation of C9: the unflagged dirty event is cleared, and
an artifact of the flagged event maps back to a result-flagged record. -/
theorem C9_export_clears_dirty_witness :
    dirtyOf (runDataExport 3 expEdb).1 "E1" = false ∧
      ∃ r, lookupE expEdb (artEvno (Artifact.html "E2")) = some r ∧
        r.res = true :=
  ⟨C9_export_clears_dirty.1 3 expEdb "E1" (by decide),
    C9_export_clears_dirty.2 3 expEdb (Artifact.html "E2") (by decide)⟩

/-! ### Event renumbering (`eventno_change`) -/

/-- Event record view for the renumber scan: identifier, autospec groups
(source event id and raw place-set, following the spec's AutospecGroup),
the dependency id list, and the `reference` field. -/
structure EvRec where
  evid : String
  auto : List (String × String)
  depend : List String
  reference : String
deriving DecidableEq

/-- Modelled from the spec: `eventdb.sub_autospec` (the eventdb module of
this repository is not under the provided source): replace the source event
id of every autospec group equal to the old number. -/
def sub_autospec (a : List (String × String)) (o n : String) :
    List (String × String) :=
  a.map (fun g => if g.1 = o then (n, g.2) else g)

/-- Modelled from the spec: `eventdb.sub_depend`: replace every id equal to
the old number in the dependency list. -/
def sub_depend (d : List String) (o n : String) : List String :=
  d.map (fun x => if x = o then n else x)

/-- The cross-reference scan of `eventno_change` (run after the directory
rename, so the renamed event already carries `newevno`): every event other
than the renamed one has its autospec and dependency list rewritten when
non-empty (Python truthiness) through the record methods
`update_autospec`/`update_depend` — modelled from the spec as the
substitutions above — and its reference field replaced on equality. -/
def eventno_change_scan (edb : List EvRec) (o n : String) : List EvRec :=
  edb.map (fun ev =>
    if ev.evid ≠ n then
      { ev with
        auto := if ev.auto ≠ [] then sub_autospec ev.auto o n else ev.auto,
        depend :=
          if ev.depend ≠ [] then sub_depend ev.depend o n else ev.depend,
        reference := if ev.reference = o then n else ev.reference }
    else ev)

/-- Whether a record still names `x` in its autospec sources, dependency
list or reference field. -/
def refersTo (ev : EvRec) (x : String) : Prop :=
  x ∈ ev.auto.map Prod.fst ∨ x ∈ ev.depend ∨ ev.reference = x

/-! ### Claim C10 -/

/-- C10 counterexample: the scan skips the renamed event itself, so when the
renamed event's own autospec names the old number (a self-reference through
its former id), that record still refers to the old identifier afterwards —
the claim's conclusion that no live record still refers to it fails. -/
theorem C10_renumber_counterexample :
    eventno_change_scan
        [{ evid := "2", auto := [("1", "1")], depend := [], reference := "" }]
        "1" "2" =
      [{ evid := "2", auto := [("1", "1")], depend := [], reference := "" }] ∧
    refersTo
      { evid := "2", auto := [("1", "1")], depend := [], reference := "" }
      "1" :=
  ⟨by decide, Or.inl (by decide)⟩

/-- After substitution with a fresh new number, the old number no longer
occurs among the autospec source ids. -/
theorem sub_autospec_no_old {a : List (String × String)} {o n : String}
    (hon : o ≠ n) : o ∉ (sub_autospec a o n).map Prod.fst := by
  intro hmem
  obtain ⟨g, hg, hfst⟩ := List.mem_map.mp hmem
  simp only [sub_autospec] at hg
  obtain ⟨g0, _, rfl⟩ := List.mem_map.mp hg
  by_cases h0 : g0.1 = o
  · rw [if_pos h0] at hfst
    exact hon hfst.symm
  · rw [if_neg h0] at hfst
    exact h0 hfst

/-- After substitution with a fresh new number, the old number no longer
occurs in the dependency list. -/
theorem sub_depend_no_old {d : List String} {o n : String}
    (hon : o ≠ n) : o ∉ sub_depend d o n := by
  intro hmem
  obtain ⟨x, _, hx⟩ := List.mem_map.mp hmem
  by_cases h0 : x = o
  · rw [if_pos h0] at hx
    exact hon hx.symm
  · rw [if_neg h0] at hx
    exact h0 hx

/-- C10 amended: after the scan, every event other than the renamed one has
each occurrence of the old number replaced by the new one in its autospec
sources, dependency list and reference field — so no record other than the
renamed event itself still refers to the old identifier (the renamed
record's own fields are not rewritten). -/
theorem C10_renumber_amended :
    (∀ (edb : List EvRec) (o n : String), o ≠ n →
      ∀ ev2 ∈ eventno_change_scan edb o n, ev2.evid ≠ n →
        ¬ refersTo ev2 o) ∧
    (∀ (a : List (String × String)) (o n : String),
      (sub_autospec a o n).map Prod.fst =
        (a.map Prod.fst).map (fun s => if s = o then n else s)) ∧
    (∀ (d : List String) (o n : String),
      sub_depend d o n = d.map (fun s => if s = o then n else s)) := by
  refine ⟨?_, ?_, fun d o n => rfl⟩
  · intro edb o n hon ev2 hmem hev
    obtain ⟨ev, hin, rfl⟩ := List.mem_map.mp hmem
    by_cases hid : ev.evid ≠ n
    · rw [if_pos hid]
      intro href
      simp only [refersTo] at href
      rcases href with ha | hd | hr
      · by_cases hne : ev.auto ≠ []
        · rw [if_pos hne] at ha
          exact sub_autospec_no_old hon ha
        · rw [if_neg hne] at ha
          push_neg at hne
          rw [hne] at ha
          simp at ha
      · by_cases hne : ev.depend ≠ []
        · rw [if_pos hne] at hd
          exact sub_depend_no_old hon hd
        · rw [if_neg hne] at hd
          push_neg at hne
          rw [hne] at hd
          simp at hd
      · by_cases h0 : ev.reference = o
        · rw [if_pos h0] at hr
          exact hon hr.symm
        · rw [if_neg h0] at hr
          exact h0 hr
    · rw [if_neg hid] at hev ⊢
      push_neg at hid
      exact absurd hid hev
  · intro a o n
    induction a with
    | nil => rfl
    | cons g rest ih =>
      simp only [sub_autospec, List.map_cons] at ih ⊢
      rw [ih]
      by_cases h0 : g.1 = o
      · rw [if_pos h0, if_pos h0]
      · rw [if_neg h0, if_neg h0]

/-- Closed instantiation of the amended C10 theorem. -/
theorem C10_renumber_amended_witness :
    ¬ refersTo
      { evid := "3", auto := [("2", "1")], depend := ["2"], reference := "2" }
      "1" :=
  C10_renumber_amended.1
    [{ evid := "3", auto := [("1", "1")], depend := ["1"], reference := "1" }]
    "1" "2" (by decide)
    { evid := "3", auto := [("2", "1")], depend := ["2"], reference := "2" }
    (by decide) (by decide)

end Trackmeet
